import Mathlib

/-!
Shallow embedding of the core of the `abysalto-docqa-backend` document-QA
service: deterministic chunking, embedding-row metadata, FAISS-row
resolution, multi-document merge, the four cache-key builders with entity
masking, the Redis cache wrapper, and the `/ask` pipeline's no-answer and
semantic-cache policies.  Text is modelled as `List Char`; machine floats
that only flow through the code (similarity scores) are modelled as `ℚ`;
fallible steps return `Except`/`Option`.
-/

set_option maxRecDepth 100000

namespace DocQA

/-- Text as a list of characters (Python `str`). -/
abbrev Str := List Char

/-- Scores are carried opaquely by the pipeline; modelled as rationals,
no float arithmetic is re-modelled. -/
abbrev Score := ℚ

/-! ## Python string primitives -/

/-- Whitespace recognised by Python's `str.strip` and `\s` (ASCII range). -/
def pyIsSpace (c : Char) : Bool :=
  c = ' ' || c = '\t' || c = '\n' || c = '\r' || c = '\x0b' || c = '\x0c'

/-- Python `str.lstrip()`. -/
def pyLstrip (s : Str) : Str := s.dropWhile pyIsSpace

/-- Python `str.rstrip()`. -/
def pyRstrip (s : Str) : Str := (s.reverse.dropWhile pyIsSpace).reverse

/-- Python `str.strip()`. -/
def pyStrip (s : Str) : Str := pyRstrip (pyLstrip s)

/-- A word character for the `\b` regex boundary: `[a-zA-Z0-9_]`
(ASCII fragment of Python's Unicode `\w`). -/
def reIsWord (c : Char) : Bool := c.isAlphanum || c = '_'

/-! ## UTF-8 and SHA-256 (the `hashlib.sha256(...).hexdigest()` calls) -/

/-- UTF-8 encoding of one code point, as byte values. -/
def utf8EncodeChar (c : Char) : List Nat :=
  let n := c.toNat
  if n < 0x80 then [n]
  else if n < 0x800 then
    [0xC0 ||| (n >>> 6), 0x80 ||| (n &&& 0x3F)]
  else if n < 0x10000 then
    [0xE0 ||| (n >>> 12), 0x80 ||| ((n >>> 6) &&& 0x3F), 0x80 ||| (n &&& 0x3F)]
  else
    [0xF0 ||| (n >>> 18), 0x80 ||| ((n >>> 12) &&& 0x3F),
     0x80 ||| ((n >>> 6) &&& 0x3F), 0x80 ||| (n &&& 0x3F)]

/-- `s.encode("utf-8")` as a byte list. -/
def utf8Encode (s : Str) : List Nat := (s.map utf8EncodeChar).flatten

/-- Truncate to a 32-bit word. -/
def w32 (n : Nat) : Nat := n % 4294967296

/-- 32-bit right rotation. -/
def rotr32 (x n : Nat) : Nat := w32 ((x >>> n) ||| (x <<< (32 - n)))

/-- The 64 SHA-256 round constants. -/
def sha256K : List Nat :=
  [1116352408, 1899447441, 3049323471, 3921009573, 961987163,
   1508970993, 2453635748, 2870763221, 3624381080, 310598401,
   607225278, 1426881987, 1925078388, 2162078206, 2614888103,
   3248222580, 3835390401, 4022224774, 264347078, 604807628,
   770255983, 1249150122, 1555081692, 1996064986, 2554220882,
   2821834349, 2952996808, 3210313671, 3336571891, 3584528711,
   113926993, 338241895, 666307205, 773529912, 1294757372,
   1396182291, 1695183700, 1986661051, 2177026350, 2456956037,
   2730485921, 2820302411, 3259730800, 3345764771, 3516065817,
   3600352804, 4094571909, 275423344, 430227734, 506948616,
   659060556, 883997877, 958139571, 1322822218, 1537002063,
   1747873779, 1955562222, 2024104815, 2227730452, 2361852424,
   2428436474, 2756734187, 3204031479, 3329325298]

/-- SHA-256 initial hash state. -/
def sha256InitH : List Nat :=
  [1779033703, 3144134277, 1013904242, 2773480762,
   1359893119, 2600822924, 528734635, 1541459225]

/-- Big-endian bytes of `n`, `k` bytes wide. -/
def beBytes (k n : Nat) : List Nat :=
  (List.range k).map (fun i => (n >>> (8 * (k - 1 - i))) % 256)

/-- SHA-256 message padding: `0x80`, zeros, then the 64-bit bit length. -/
def sha256Pad (msg : List Nat) : List Nat :=
  let padLen := (55 + 64 - msg.length % 64) % 64 + 1
  msg ++ [0x80] ++ List.replicate (padLen - 1) 0 ++ beBytes 8 (8 * msg.length)

/-- Worker for `groupsOf`; the fuel only bounds the recursion depth and
is never the deciding case when it starts at the list length and `k > 0`
(each step consumes `k ≥ 1` elements). -/
def groupsOfGo (fuel k : Nat) (l : List α) : List (List α) :=
  match fuel with
  | 0 => []
  | fuel + 1 =>
      if k = 0 ∨ l.length = 0 then []
      else l.take k :: groupsOfGo fuel k (l.drop k)

/-- Split a list into consecutive groups of `k` elements (`k > 0`). -/
def groupsOf (k : Nat) (l : List α) : List (List α) := groupsOfGo l.length k l

/-- Assemble one 32-bit word from four big-endian bytes. -/
def wordOfBytes (bs : List Nat) : Nat :=
  bs.foldl (fun acc b => acc * 256 + b) 0

/-- Extend 16 message words to the 64-entry SHA-256 schedule. -/
def sha256Schedule (ws : List Nat) : List Nat :=
  let step := fun (acc : List Nat) (i : Nat) =>
    let g := fun j => acc.getD j 0
    let s0 := (rotr32 (g (i - 15)) 7) ^^^ (rotr32 (g (i - 15)) 18) ^^^ ((g (i - 15)) >>> 3)
    let s1 := (rotr32 (g (i - 2)) 17) ^^^ (rotr32 (g (i - 2)) 19) ^^^ ((g (i - 2)) >>> 10)
    acc ++ [w32 (g (i - 16) + s0 + g (i - 7) + s1)]
  (List.range 48).foldl (fun acc i => step acc (i + 16)) ws

/-- One SHA-256 compression round. -/
def sha256Round (st : List Nat) (kw : Nat × Nat) : List Nat :=
  let g := fun j => st.getD j 0
  let a := g 0; let b := g 1; let c := g 2; let d := g 3
  let e := g 4; let f := g 5; let gg := g 6; let h := g 7
  let s1 := (rotr32 e 6) ^^^ (rotr32 e 11) ^^^ (rotr32 e 25)
  let ch := (e &&& f) ^^^ ((0xffffffff ^^^ e) &&& gg)
  let t1 := w32 (h + s1 + ch + kw.1 + kw.2)
  let s0 := (rotr32 a 2) ^^^ (rotr32 a 13) ^^^ (rotr32 a 22)
  let mj := (a &&& b) ^^^ (a &&& c) ^^^ (b &&& c)
  let t2 := w32 (s0 + mj)
  [w32 (t1 + t2), a, b, c, w32 (d + t1), e, f, gg]

/-- Process one 64-byte block into the running hash state. -/
def sha256Block (hs : List Nat) (block : List Nat) : List Nat :=
  let ws := sha256Schedule ((groupsOf 4 block).map wordOfBytes)
  let st := (sha256K.zip ws).foldl sha256Round hs
  (hs.zip st).map (fun p => w32 (p.1 + p.2))

/-- SHA-256 digest of a byte list, as eight 32-bit words. -/
def sha256Words (msg : List Nat) : List Nat :=
  (groupsOf 64 (sha256Pad msg)).foldl sha256Block sha256InitH

/-- Lower-case hex digit for a nibble. -/
def hexDigit (n : Nat) : Char :=
  if n < 10 then Char.ofNat (48 + n) else Char.ofNat (87 + n)

/-- Lower-case big-endian hex of `n`, `k` nibbles wide. -/
def hexOfNat (k n : Nat) : Str :=
  (List.range k).map (fun i => hexDigit ((n >>> (4 * (k - 1 - i))) % 16))

/-- `hashlib.sha256(msg).hexdigest()`: 64 lower-case hex characters. -/
def sha256Hexdigest (msg : List Nat) : Str :=
  ((sha256Words msg).map (hexOfNat 8)).flatten

/-! ## Settings (`app/core/config.py`, default values) -/

def EMBEDDING_MODEL_NAME : Str := "sentence-transformers/all-MiniLM-L6-v2".data

def CHUNK_SIZE_CHARS : Nat := 1000

def CHUNK_OVERLAP_CHARS : Nat := 200

def CHUNK_SEPARATORS : List Str := ["\n\n".data, "\n".data, ". ".data, " ".data, "".data]

def MAX_CHUNKS_PER_DOC : Nat := 5000

def EMBEDDING_BATCH_SIZE : Nat := 64

def MAX_CHUNKS_TO_EMBED : Nat := 5000

def EMBEDDING_NORMALIZE : Bool := true

def MAX_TOP_K : Int := 20

def QA_MIN_SCORE : Score := 15 / 100

def QA_MAX_CONTENT_CHARS : Nat := 4000

def MAX_QUESTION_CHARS : Nat := 500

def SEMANTIC_CACHE_THRESHOLD : Score := 3 / 4

/-! ## Regex fragment used by `cache_keys.py`

`mask_entities` applies five `re.sub` substitutions.  We embed exactly the
regex constructs those patterns use — literals, character classes, greedy
one-or-more over a class, sequencing, alternation, greedy option, and the
`\b` word boundary — with Python's backtracking preference order, and take
the first candidate of a leftmost scan, which is the match `re.sub` picks. -/

inductive RE where
  | chr (c : Char)
  | cls (p : Char → Bool)
  | plusCls (p : Char → Bool)
  | seq (a b : RE)
  | alt (a b : RE)
  | opt (a : RE)
  | wb

/-- `\b`: the previous character and the next character disagree on
wordness (start/end of string counts as non-word). -/
def atBoundary (prev : Option Char) (s : Str) : Bool :=
  let w1 := match prev with | none => false | some c => reIsWord c
  let w2 := match s with | [] => false | c :: _ => reIsWord c
  w1 != w2

/-- Candidates of a greedy `p+`, longest first; each candidate records the
last consumed character (for later `\b` tests) and the remaining input. -/
def plusCands (p : Char → Bool) : Option Char → Str → List (Option Char × Str)
  | _, [] => []
  | _, x :: rest =>
      if p x then plusCands p (some x) rest ++ [(some x, rest)] else []

/-- All ways a pattern can match a prefix of `s`, in Python's backtracking
preference order; the head is the match the `re` engine selects. -/
def reCands : RE → Option Char → Str → List (Option Char × Str)
  | .chr c, _, x :: rest => if x = c then [(some x, rest)] else []
  | .chr _, _, [] => []
  | .cls p, _, x :: rest => if p x then [(some x, rest)] else []
  | .cls _, _, [] => []
  | .plusCls p, prev, s => plusCands p prev s
  | .seq a b, prev, s => (reCands a prev s).flatMap (fun pr => reCands b pr.1 pr.2)
  | .alt a b, prev, s => reCands a prev s ++ reCands b prev s
  | .opt a, prev, s => reCands a prev s ++ [(prev, s)]
  | .wb, prev, s => if atBoundary prev s then [(prev, s)] else []

/-- `re.sub` scan: at each position try the pattern; on a match emit the
replacement and continue after it, else keep the character and move on.
The five patterns of `cache_keys.py` always consume at least one character,
so the zero-width guard and the fuel are never the deciding case. -/
def reSubGo : Nat → RE → Str → Option Char → Str → Str
  | 0, _, _, _, s => s
  | _ + 1, _, _, _, [] => []
  | fuel + 1, re, repl, prev, x :: rest =>
      match (reCands re prev (x :: rest)).head? with
      | some pr =>
          if pr.2.length < (x :: rest).length then
            repl ++ reSubGo fuel re repl pr.1 pr.2
          else x :: reSubGo fuel re repl (some x) rest
      | none => x :: reSubGo fuel re repl (some x) rest

/-- Python `re.sub(pattern, repl, s)` for the embedded fragment. -/
def reSub (re : RE) (repl : Str) (s : Str) : Str :=
  reSubGo (s.length + 1) re repl none s

/-- `RE_EMAIL = r"\b\S+@\S+\b"`. -/
def reEmail : RE :=
  .seq .wb (.seq (.plusCls (fun c => !pyIsSpace c))
    (.seq (.chr '@') (.seq (.plusCls (fun c => !pyIsSpace c)) .wb)))

/-- `RE_MONEY = r"\$[\d,]+(?:\.\d+)?"`. -/
def reMoney : RE :=
  .seq (.chr '$') (.seq (.plusCls (fun c => c.isDigit || c = ','))
    (.opt (.seq (.chr '.') (.plusCls Char.isDigit))))

/-- `RE_PERCENT = r"\b\d+(\.\d+)?%"`. -/
def rePercent : RE :=
  .seq .wb (.seq (.plusCls Char.isDigit)
    (.seq (.opt (.seq (.chr '.') (.plusCls Char.isDigit))) (.chr '%')))

/-- `RE_YEAR = r"\b(19|20)\d{2}\b"`. -/
def reYear : RE :=
  .seq .wb (.seq (.alt (.seq (.chr '1') (.chr '9')) (.seq (.chr '2') (.chr '0')))
    (.seq (.cls Char.isDigit) (.seq (.cls Char.isDigit) .wb)))

/-- `RE_NUMBER = r"\b\d+(\.\d+)?\b"`. -/
def reNumber : RE :=
  .seq .wb (.seq (.plusCls Char.isDigit)
    (.seq (.opt (.seq (.chr '.') (.plusCls Char.isDigit))) .wb))

/-! ## `app/services/cache/cache_keys.py` -/

/-- `WS_RE.sub(" ", q)`: replace every whitespace run by a single space.
The Boolean flag records being inside a run already replaced. -/
def wsCollapse : Bool → Str → Str
  | _, [] => []
  | inRun, c :: rest =>
      if pyIsSpace c then
        if inRun then wsCollapse true rest else ' ' :: wsCollapse true rest
      else c :: wsCollapse false rest

/-- `normalize_question`. -/
def normalizeQuestion (q : Str) : Str := wsCollapse false (pyStrip q)

/-- `mask_entities`: normalize, then the five substitutions in source order. -/
def maskEntities (q : Str) : Str :=
  let q1 := normalizeQuestion q
  let q2 := reSub reEmail "[EMAIL]".data q1
  let q3 := reSub reMoney "[AMOUNT]".data q2
  let q4 := reSub rePercent "[PERCENT]".data q3
  let q5 := reSub reYear "[YEAR]".data q4
  reSub reNumber "[NUMBER]".data q5

/-- `sha256_hex`. -/
def sha256Hex (s : Str) : Str := sha256Hexdigest (utf8Encode s)

/-! ## Python `repr`, for `_chunking_version`'s tuple formatting -/

/-- Escapes produced by `repr` of a string, for the characters appearing
in the chunk separator configuration. -/
def pyReprChar (c : Char) : Str :=
  if c = '\\' then ['\\', '\\']
  else if c = '\'' then ['\\', '\'']
  else if c = '\n' then ['\\', 'n']
  else if c = '\r' then ['\\', 'r']
  else if c = '\t' then ['\\', 't']
  else [c]

/-- `repr` of a string without double quotes: single-quoted. -/
def pyReprStr (s : Str) : Str :=
  ['\''] ++ (s.map pyReprChar).flatten ++ ['\'']

/-- `str`/`repr` of a tuple of strings (trailing comma for singletons). -/
def pyReprTuple (xs : List Str) : Str :=
  match xs with
  | [x] => ['('] ++ pyReprStr x ++ [',', ')']
  | _ => ['('] ++ (List.intercalate [',', ' '] (xs.map pyReprStr)) ++ [')']

/-- `_chunking_version`'s pre-hash string
`f"{CHUNK_SIZE_CHARS}:{CHUNK_OVERLAP_CHARS}:{CHUNK_SEPARATORS}"`. -/
def chunkingVersionRaw : Str :=
  (toString CHUNK_SIZE_CHARS).data ++ [':'] ++ (toString CHUNK_OVERLAP_CHARS).data
    ++ [':'] ++ pyReprTuple CHUNK_SEPARATORS

/-- `_chunking_version` (`embed_cunks.py`): 16 hex chars of the hash. -/
def chunkingVersion : Str := (sha256Hex chunkingVersionRaw).take 16

/-! ## `app/services/indexing/chunking.py` -/

/-- Line boundaries recognised by Python `str.splitlines`. -/
def isLineBoundary (c : Char) : Bool :=
  c = '\n' || c = '\r' || c = '\x0b' || c = '\x0c' ||
  c = '\x1c' || c = '\x1d' || c = '\x1e' || c = '\x85' ||
  c = ' ' || c = ' '

/-- `str.splitlines()` worker: a trailing boundary opens no further line. -/
def pySplitlinesGo (acc : Str) : Str → List Str
  | [] => [acc.reverse]
  | '\r' :: '\n' :: rest =>
      if rest.isEmpty then [acc.reverse] else acc.reverse :: pySplitlinesGo [] rest
  | c :: rest =>
      if isLineBoundary c then
        if rest.isEmpty then [acc.reverse] else acc.reverse :: pySplitlinesGo [] rest
      else pySplitlinesGo (c :: acc) rest

/-- Python `str.splitlines()`. -/
def pySplitlines (s : Str) : List Str :=
  if s.isEmpty then [] else pySplitlinesGo [] s

/-- `_normalize`: drop null bytes, strip, strip each line, re-join with
newlines (paragraph structure is kept for splitting). -/
def normalizeText (s : Str) : Str :=
  let s1 := s.map (fun c => if c = '\x00' then ' ' else c)
  let s2 := pyStrip s1
  List.intercalate ['\n'] ((pySplitlines s2).map pyStrip)

/-- `_stable_chunk_id`: 24 hex chars of
`sha256(f"{doc_id}:{page}:{chunk_index}:" + text[:200])`. -/
def stableChunkId (docId : Str) (page : Int) (chunkIndex : Nat) (text : Str) : Str :=
  let head := docId ++ [':'] ++ (toString page).data ++ [':']
    ++ (toString chunkIndex).data ++ [':']
  (sha256Hexdigest (utf8Encode head ++ utf8Encode (text.take 200))).take 24

/-- Python `str.split(sep)` worker for a non-empty separator.  The fuel
only bounds recursion depth; starting it at `s.length + 1` it never runs
out, since every step consumes at least one character. -/
def pySplitGo (fuel : Nat) (sep : Str) (acc : Str) (s : Str) : List Str :=
  match fuel with
  | 0 => [acc.reverse ++ s]
  | fuel + 1 =>
      match s with
      | [] => [acc.reverse]
      | c :: rest =>
          if sep.isPrefixOf (c :: rest) then
            acc.reverse :: pySplitGo fuel sep [] ((c :: rest).drop sep.length)
          else pySplitGo fuel sep (c :: acc) rest

/-- Python `str.split(sep)`; the source never calls it with an empty
separator (that raises ValueError; "" takes the hard-split branch). -/
def pySplit (sep : Str) (s : Str) : List Str :=
  if 0 < sep.length then pySplitGo (s.length + 1) sep [] s else [s]

/-- Hard-split worker: strip consecutive windows of `maxLen` characters.
With `maxLen = 0` the source loop would not advance; the settings keep
`CHUNK_SIZE_CHARS` positive, and then fuel `text.length` suffices. -/
def hardSplitGo (fuel maxLen : Nat) (text : Str) : List Str :=
  match fuel with
  | 0 => []
  | fuel + 1 =>
      if maxLen = 0 ∨ text.length = 0 then []
      else pyStrip (text.take maxLen) :: hardSplitGo fuel maxLen (text.drop maxLen)

/-- The `sep == ""` fallback of `_recursive_split`: windows of `maxLen`,
stripped, empties dropped. -/
def hardSplit (maxLen : Nat) (text : Str) : List Str :=
  (hardSplitGo text.length maxLen text).filter (fun p => !p.isEmpty)

/-- The accumulation loop of `_recursive_split`: greedily grow `current`
with `sep`-joined parts while it stays within `maxLen`; flush an
overflowing `current` through `rsplit` (the recursion on the remaining
separators). State is `(chunks, current)`. -/
def accumLoop (maxLen : Nat) (sep : Str) (rsplit : Str → List Str) :
    List Str → List Str × Str → List Str × Str
  | [], st => st
  | part :: rest, (chunks, current) =>
      let part := pyStrip part
      if part.isEmpty then accumLoop maxLen sep rsplit rest (chunks, current)
      else
        let candidate := if current.isEmpty then part else current ++ sep ++ part
        if candidate.length ≤ maxLen then accumLoop maxLen sep rsplit rest (chunks, candidate)
        else
          accumLoop maxLen sep rsplit rest
            ((if current.isEmpty then chunks else chunks ++ rsplit current), part)

/-- `_recursive_split`.  When the separators are exhausted the source
would evaluate `seps[0]` and raise IndexError; with the configured
separator tuple (ending in "") that branch is unreachable. -/
def recursiveSplit (maxLen : Nat) : List Str → Str → List Str
  | [] => fun text =>
      let t := pyStrip text
      if t.isEmpty then []
      else if t.length ≤ maxLen then [t]
      else []
  | sep :: restSeps => fun text =>
      let t := pyStrip text
      if t.isEmpty then []
      else if t.length ≤ maxLen then [t]
      else if sep.isEmpty then hardSplit maxLen t
      else
        let partsRaw := pySplit sep t
        if partsRaw.length = 1 then recursiveSplit maxLen restSeps t
        else
          let st := accumLoop maxLen sep (recursiveSplit maxLen restSeps) partsRaw ([], [])
          let chunks := if st.2.isEmpty then st.1
            else st.1 ++ recursiveSplit maxLen restSeps st.2
          (chunks.map pyStrip).filter (fun c => !c.isEmpty)

/-- `prev[-overlap:] if len(prev) > overlap else prev`: the trailing
`overlap` characters carried across the chunk boundary. -/
def overlapTail (overlap : Nat) (prev : Str) : Str :=
  if prev.length > overlap then prev.drop (prev.length - overlap) else prev

/-- `_apply_overlap` worker: each output chunk is the stripped
concatenation of the tail of the previous output chunk, a space, and the
next input chunk. -/
def applyOverlapGo (overlap : Nat) (prev : Str) : List Str → List Str
  | [] => []
  | c :: rest =>
      let combined := pyStrip (overlapTail overlap prev ++ [' '] ++ c)
      combined :: applyOverlapGo overlap combined rest

/-- `_apply_overlap` (`overlap <= 0` and empty lists pass through). -/
def applyOverlap (chunks : List Str) (overlap : Nat) : List Str :=
  match chunks with
  | [] => chunks
  | c0 :: rest => if overlap = 0 then chunks else c0 :: applyOverlapGo overlap c0 rest

/-- A page entry of `processed/{doc_id}/text.json`, already parsed. -/
structure PageObj where
  page : Int
  text : Str
  source : Str
  confidence : Option Score
deriving DecidableEq

/-- The `Chunk` dataclass. -/
structure Chunk where
  chunk_id : Str
  doc_id : Str
  page : Int
  chunk_index : Nat
  text : Str
  char_start : Nat
  char_end : Nat
  source : Str
  confidence : Option Score
deriving DecidableEq

/-- One entry of `chunk_map["chunks"]`. -/
structure ChunkMapEntry where
  chunk_id : Str
  page : Int
  chunk_index : Nat
  char_start : Nat
  char_end : Nat
deriving DecidableEq

/-- The `chunk_map` manifest. -/
structure ChunkMap where
  doc_id : Str
  chunk_size_chars : Nat
  chunk_overlap_chars : Nat
  separators : List Str
  created_at : Str
  chunks : List ChunkMapEntry
deriving DecidableEq

/-- Python `hay.find(needle, start)` worker, scanning from index `i`. -/
def findFromGo (needle : Str) (i : Nat) : Str → Option Nat
  | [] => if needle.isPrefixOf [] then some i else none
  | c :: rest =>
      if needle.isPrefixOf (c :: rest) then some i else findFromGo needle (i + 1) rest

/-- Python `hay.find(needle, start)` (`none` for -1). -/
def findFrom (hay needle : Str) (start : Nat) : Option Nat :=
  findFromGo needle start (hay.drop start)

/-- Running state of the chunk loop in `build_chunks_for_doc`:
page-local cursor, document-global counter, accumulated artifacts. -/
structure ChunkBuildSt where
  cursor : Nat
  counter : Nat
  chunks : List Chunk
  entries : List ChunkMapEntry
deriving DecidableEq

/-- One iteration of the per-page chunk loop (source lines 203-245):
locate the chunk in the page text from the advancing cursor, fall back to
a cursor-relative estimate, mint the stable id, append, and enforce the
`MAX_CHUNKS_PER_DOC` ceiling (checked after the increment, as the source
does). -/
def chunkStep (docId : Str) (pageNum : Int) (source : Str) (confidence : Option Score)
    (pageText : Str) (st : ChunkBuildSt) (ctext : Str) : Except String ChunkBuildSt :=
  if ctext.isEmpty then .ok st
  else
    let pos : Nat × Nat × Nat :=
      match findFrom pageText (pyStrip ctext) st.cursor with
      | none => (st.cursor, min (st.cursor + ctext.length) pageText.length, st.cursor)
      | some found => (found, found + ctext.length, found + ctext.length)
    let cid := stableChunkId docId pageNum st.counter ctext
    let st' : ChunkBuildSt :=
      { cursor := pos.2.2
        counter := st.counter + 1
        chunks := st.chunks ++
          [⟨cid, docId, pageNum, st.counter, ctext, pos.1, pos.2.1, source, confidence⟩]
        entries := st.entries ++ [⟨cid, pageNum, st.counter, pos.1, pos.2.1⟩] }
    if MAX_CHUNKS_PER_DOC < st.counter + 1 then .error "TOO_MANY_CHUNKS" else .ok st'

/-- One page of `build_chunks_for_doc`: non-positive page numbers are
skipped; the page text is normalized, split, overlapped, and folded
through `chunkStep` with a fresh cursor. -/
def buildPage (docId : Str) (maxLen overlap : Nat) (seps : List Str)
    (st : ChunkBuildSt) (p : PageObj) : Except String ChunkBuildSt :=
  if p.page ≤ 0 then .ok st
  else
    let pageText := normalizeText p.text
    let overlapped := applyOverlap (recursiveSplit maxLen seps pageText) overlap
    overlapped.foldlM (chunkStep docId p.page p.source p.confidence pageText)
      { st with cursor := 0 }

/-- `build_chunks_for_doc`, over the parsed `pages` array (the file
read and JSON shape checks live outside the model); `createdAt` is the
`datetime.now` value written into the manifest. -/
def buildChunksForDoc (docId : Str) (pages : List PageObj) (createdAt : Str) :
    Except String (List Chunk × ChunkMap) :=
  match pages.foldlM
      (buildPage docId CHUNK_SIZE_CHARS CHUNK_OVERLAP_CHARS CHUNK_SEPARATORS) ⟨0, 0, [], []⟩ with
  | .error e => .error e
  | .ok st => .ok (st.chunks,
      ⟨docId, CHUNK_SIZE_CHARS, CHUNK_OVERLAP_CHARS, CHUNK_SEPARATORS, createdAt, st.entries⟩)

/-! ## `app/services/indexing/embed_cunks.py` -/

/-- One parsed line of `chunks.jsonl`. -/
structure ChunkRec where
  chunk_id : Str
  doc_id : Str
  page : Int
  chunk_index : Int
  text : Str
deriving DecidableEq

/-- One line of `embeddings_meta.jsonl`. -/
structure RowMeta where
  row : Nat
  chunk_id : Str
  doc_id : Str
  page : Int
  chunk_index : Int
deriving DecidableEq

/-- `_batched`: groups of `batchSize` (final group possibly shorter). -/
def batchedGo (batchSize : Nat) (batch : List α) : List α → List (List α)
  | [] => if batch.isEmpty then [] else [batch]
  | x :: rest =>
      let b := batch ++ [x]
      if batchSize ≤ b.length then b :: batchedGo batchSize [] rest
      else batchedGo batchSize b rest

/-- `_batched(iterable, batch_size)`. -/
def batched (l : List α) (batchSize : Nat) : List (List α) := batchedGo batchSize [] l

/-- Shape view of the numpy array returned by `encode_texts`; the vector
contents never influence the modelled control flow. -/
structure EmbMatrix where
  ndim : Nat
  rows : Nat
  cols : Nat
deriving DecidableEq

/-- `embeddings_info.json`. -/
structure InfoManifest where
  doc_id : Str
  row_count : Nat
  dim : Nat
  embedding_model : Str
  normalize : Bool
  batch_size : Nat
  chunking_version : Str
  created_at : Str
deriving DecidableEq

/-- Per-document artifact files touched by the embedding build;
`none` means the file does not exist. `npyFile` keeps the persisted
matrix shape. -/
structure DocFS where
  chunksFile : Option (List ChunkRec)
  metaFile : Option (List RowMeta)
  npyFile : Option (Nat × Nat)
  infoFile : Option InfoManifest
deriving DecidableEq

/-- Result dataclass of `embed_document_chunks` (paths omitted). -/
structure EmbedResult where
  doc_id : Str
  row_count : Nat
  dim : Nat
deriving DecidableEq

/-- Outcome of the batch loop: the meta lines written to the (already
truncated) file so far, the counters, and the pending error if a ceiling
or shape check fired mid-loop. -/
structure EmbedLoopOut where
  meta : List RowMeta
  rowCount : Nat
  dim : Nat
  err : Option String
deriving DecidableEq

/-- The batch loop of `embed_document_chunks`: ceiling check before the
batch, encode, shape check, then one meta line per batch element with
`row = row_count + i`. -/
def embedLoop (encode : List Str → EmbMatrix) (maxToEmbed : Nat) :
    List (List ChunkRec) → EmbedLoopOut → EmbedLoopOut
  | [], st => st
  | batch :: rest, st =>
      let texts := batch.map (fun it => it.text)
      if maxToEmbed < st.rowCount + texts.length then
        { st with err := some "TOO_MANY_CHUNKS_TO_EMBED" }
      else
        let emb := encode texts
        if emb.ndim ≠ 2 then { st with err := some "INVALID_EMBEDDING_SHAPE" }
        else
          let newMeta := batch.enum.map (fun p =>
            (⟨st.rowCount + p.1, p.2.chunk_id, p.2.doc_id, p.2.page, p.2.chunk_index⟩ : RowMeta))
          embedLoop encode maxToEmbed rest
            { meta := st.meta ++ newMeta
              rowCount := st.rowCount + batch.length
              dim := if st.dim = 0 then emb.cols else st.dim
              err := none }

/-- `embed_document_chunks` as a file-system transformer, for the
environment-configurable `EMBEDDING_BATCH_SIZE` / `MAX_CHUNKS_TO_EMBED`
settings.  The meta file is opened with mode "w" (truncated) before the
chunk iterator's existence check runs, so every early exit leaves
whatever was written so far; `embeddings.npy` and `embeddings_info.json`
are only written after the loop completes. -/
def embedDocumentChunks (encode : List Str → EmbMatrix) (docId : Str) (createdAt : Str)
    (batchSize maxToEmbed : Nat) (fs : DocFS) : DocFS × Except String EmbedResult :=
  match fs.chunksFile with
  | none => ({ fs with metaFile := some [] }, .error "CHUNKS_NOT_FOUND")
  | some chunks =>
      let out := embedLoop encode maxToEmbed (batched chunks batchSize) ⟨[], 0, 0, none⟩
      match out.err with
      | some e => ({ fs with metaFile := some out.meta }, .error e)
      | none =>
          let info : InfoManifest :=
            ⟨docId, out.rowCount, out.dim, EMBEDDING_MODEL_NAME, EMBEDDING_NORMALIZE,
              batchSize, chunkingVersion, createdAt⟩
          ({ fs with
              metaFile := some out.meta
              npyFile := some (out.rowCount, out.dim)
              infoFile := some info },
            .ok ⟨docId, out.rowCount, out.dim⟩)

/-- The `already_embedded` short-circuit of the `/documents/{id}/embed`
route (`embeddings.py` line 39): all three artifact files exist. -/
def alreadyEmbedded (fs : DocFS) : Bool :=
  fs.npyFile.isSome && fs.metaFile.isSome && fs.infoFile.isSome

/-! ## `app/services/retrieval/retriever.py` -/

/-- The `RetrievedChunk` dataclass. -/
structure RetrievedChunk where
  doc_id : Str
  chunk_id : Str
  score : Score
  page : Option Int
  chunk_index : Option Int
  text_snippet : Str
deriving DecidableEq

/-- `_load_row_to_chunk_id`: fold the meta lines; in-order rows append,
a forward gap is padded with empty ids, and (as in the source) a
duplicate or backward row still appends at the end. -/
def loadRowToChunkId (metaLines : List RowMeta) : List Str :=
  metaLines.foldl
    (fun rowToId obj =>
      if obj.row = rowToId.length then rowToId ++ [obj.chunk_id]
      else rowToId ++ List.replicate (obj.row - rowToId.length) [] ++ [obj.chunk_id])
    []

/-- Python-dict insert used by `_load_chunk_text_map`: a later line with
the same `chunk_id` overwrites the earlier one. -/
def dictInsert (m : List (Str × ChunkRec)) (obj : ChunkRec) : List (Str × ChunkRec) :=
  (m.filter (fun kv => kv.1 ≠ obj.chunk_id)) ++ [(obj.chunk_id, obj)]

/-- `_load_chunk_text_map` over the parsed `chunks.jsonl` lines. -/
def loadChunkTextMap (chunks : List ChunkRec) : List (Str × ChunkRec) :=
  chunks.foldl dictInsert []

/-- `dict.get` on the association-list model. -/
def dictGet (m : List (Str × ChunkRec)) (key : Str) : Option ChunkRec :=
  (m.find? (fun kv => kv.1 = key)).map (fun kv => kv.2)

/-- Resolution of one `(score, row)` pair returned by the vector search
(the body of the loop in `RetrieverService.search`): out-of-range rows
and rows mapped to an empty id are skipped; otherwise the chunk map
supplies snippet and provenance (missing entries degrade to `{}`). -/
def resolveHit (docId : Str) (rowToId : List Str) (chunkMap : List (Str × ChunkRec)) :
    Score × Int → Option RetrievedChunk
  | (score, row) =>
      if row < 0 ∨ (rowToId.length : Int) ≤ row then none
      else
        let cid := rowToId.getD row.toNat []
        if cid.isEmpty then none
        else
          let ch := dictGet chunkMap cid
          let text := match ch with | some c => c.text | none => []
          some
            { doc_id := docId
              chunk_id := cid
              score := score
              page := ch.map (fun c => c.page)
              chunk_index := ch.map (fun c => c.chunk_index)
              text_snippet := text.take 400 }

/-- The result-accumulation loop of `RetrieverService.search`. -/
def searchResolve (docId : Str) (rowToId : List Str) (chunkMap : List (Str × ChunkRec)) :
    List (Score × Int) → List RetrievedChunk
  | [] => []
  | hit :: rest =>
      match resolveHit docId rowToId chunkMap hit with
      | some rc => rc :: searchResolve docId rowToId chunkMap rest
      | none => searchResolve docId rowToId chunkMap rest

/-- `RetrieverService.search`.  The FAISS index, the query embedding and
`search_index` are abstracted into `searchIdx`, which for a clamped
`top_k` yields the `(scores[0,j], idx[0,j])` pairs; the row-metadata and
chunk files are passed as parsed lines. -/
def retrieverSearch (searchIdx : Int → List (Score × Int)) (metaLines : List RowMeta)
    (chunks : List ChunkRec) (docId : Str) (query : Str) (topK : Int) :
    List RetrievedChunk :=
  if (pyStrip query).isEmpty then []
  else
    let topK := if topK < 1 then 1 else topK
    let topK := if topK > MAX_TOP_K then MAX_TOP_K else topK
    let rowToId := loadRowToChunkId metaLines
    let chunkMap := loadChunkTextMap chunks
    searchResolve docId rowToId chunkMap (searchIdx topK)

/-! ## `app/services/qa/ask_pipeline.py` -/

/-- `QaResult` returned by the QA collaborator. -/
structure QaRes where
  answer : Str
  score : Option Score
deriving DecidableEq

/-- `AskPipelineResult`. -/
structure AskPipelineResult where
  answer : Str
  confidence : Option Score
  sources : List RetrievedChunk
deriving DecidableEq

/-- The fixed refusal string of the no-answer policy. -/
def REFUSAL : Str := "I don't know based on the provided documents.".data

/-- `clean_question` (same normalisation as `normalize_question`). -/
def cleanQuestion (q : Str) : Str := wsCollapse false (pyStrip q)

/-- `truncate_context`: hard cut then rstrip. -/
def truncateContext (ctx : Str) (maxChars : Nat) : Str :=
  if ctx.length ≤ maxChars then ctx else pyRstrip (ctx.take maxChars)

/-- Python `str` of an optional int (`None` prints as "None"). -/
def optIntStr (x : Option Int) : Str :=
  match x with | none => "None".data | some n => (toString n).data

/-- `build_context`: per source a provenance header then the snippet then
a blank line, newline-joined and stripped.  `fmtScore` stands for the
`{score:.4f}` float formatting, which is outside the embedding. -/
def buildContext (fmtScore : Score → Str) (sources : List RetrievedChunk) : Str :=
  let parts := sources.flatMap (fun s =>
    ["[doc_id = ".data ++ s.doc_id ++ " page = ".data ++ optIntStr s.page
      ++ " chunk_id = ".data ++ s.chunk_id ++ " score = ".data ++ fmtScore s.score ++ "]".data,
     s.text_snippet, []])
  pyStrip (List.intercalate ['\n'] parts)

/-- `sorted(hits, key=lambda h: h.score, reverse=True)`: Python's stable
sort by descending score. -/
def sortByScoreDesc (l : List RetrievedChunk) : List RetrievedChunk :=
  l.mergeSort (fun a b => decide (b.score ≤ a.score))

/-- `retrieve_multi_doc`: clamp `top_k`, query every document for its
local `per_doc_k`, merge, sort by descending score, truncate. -/
def retrieveMultiDoc (search : Str → Str → Int → List RetrievedChunk)
    (question : Str) (docIds : List Str) (topK : Int) : List RetrievedChunk :=
  let topK := if topK < 1 then 1 else topK
  let topK := if topK > MAX_TOP_K then MAX_TOP_K else topK
  let perDocK := max 1 (min topK MAX_TOP_K)
  let merged := docIds.flatMap (fun did => search did question perDocK)
  (sortByScoreDesc merged).take topK.toNat

/-- `ask_over_docs`: clean and bound the question, retrieve, build and
truncate the context, query the QA collaborator, apply the no-answer
policy. -/
def askOverDocs (search : Str → Str → Int → List RetrievedChunk)
    (qa : Str → Str → QaRes) (fmtScore : Score → Str)
    (question : Str) (docIds : List Str) (topK : Int) : AskPipelineResult :=
  let q := cleanQuestion question
  if q.isEmpty then ⟨[], none, []⟩
  else
    let q := if MAX_QUESTION_CHARS < q.length then q.take MAX_QUESTION_CHARS else q
    let sources := retrieveMultiDoc search q docIds topK
    let ctx := truncateContext (buildContext fmtScore sources) QA_MAX_CONTENT_CHARS
    let r := qa q ctx
    let lowScore := match r.score with
      | some s => decide (s < QA_MIN_SCORE)
      | none => false
    if r.answer.isEmpty || lowScore then ⟨REFUSAL, r.score, sources⟩
    else ⟨r.answer, r.score, sources⟩

/-! ## `app/services/cache/redis_cache.py` -/

/-- What the underlying `redis` client's `get` can do: fail (connection
loss), find nothing, or return raw bytes. -/
inductive StoreResp where
  | connErr
  | missing
  | val (raw : List Nat)
deriving DecidableEq

/-- `CacheGetResult`. -/
structure CacheGetResult (α : Type) where
  hit : Bool
  value : Option α
deriving DecidableEq

/-- `RedisCache.get_json`.  The `client.get` call sits outside the
`try`, so a store failure propagates as an exception; only the
decode step is guarded and degrades to a miss. -/
def getJson (decode : List Nat → Option α) : StoreResp → Except String (CacheGetResult α)
  | .connErr => .error "REDIS_CONNECTION_ERROR"
  | .missing => .ok ⟨false, none⟩
  | .val raw =>
      match decode raw with
      | some v => .ok ⟨true, some v⟩
      | none => .ok ⟨false, none⟩

/-- `RedisCache.get_embedding`, same structure with `np.frombuffer` as
the guarded decode step. -/
def getEmbedding (fromBuffer : List Nat → Option (List Score)) :
    StoreResp → Except String (CacheGetResult (List Score))
  | .connErr => .error "REDIS_CONNECTION_ERROR"
  | .missing => .ok ⟨false, none⟩
  | .val raw =>
      match fromBuffer raw with
      | some v => .ok ⟨true, some v⟩
      | none => .ok ⟨false, none⟩

/-! ## `app/api/routes/ask.py` -/

/-- The index-version component the route passes to `retr_key`
(`ask.py` line 150): the constant string `"v1"`. -/
def indexVersion : Str := "v1".data

/-- `retr_key`. -/
def retrKey (scope iv docId question : Str) (topK : Int) : Str :=
  "retr:".data ++ scope ++ [':'] ++ iv ++ [':'] ++ docId ++ [':']
    ++ sha256Hex (normalizeQuestion question) ++ [':'] ++ (toString topK).data

/-- `qemb_key`. -/
def qembKey (question : Str) : Str :=
  "qemb:".data ++ EMBEDDING_MODEL_NAME ++ [':'] ++ chunkingVersion ++ [':']
    ++ sha256Hex (normalizeQuestion question)

/-- `ans_key`. -/
def ansKey (scope pipelineVersion question : Str) (topK : Int) : Str :=
  "ans:".data ++ scope ++ [':'] ++ pipelineVersion ++ [':']
    ++ sha256Hex (normalizeQuestion question) ++ [':'] ++ (toString topK).data

/-- `sem_key`: exact matching on the masked question. -/
def semKey (scope pipelineVersion question : Str) (topK : Int) : Str :=
  "sem:".data ++ scope ++ [':'] ++ pipelineVersion ++ [':']
    ++ sha256Hex (maskEntities question) ++ [':'] ++ (toString topK).data

/-- State the per-document FAISS artifacts are in; `build_faiss_index`
replaces it, stamping a fresh `created_at`. -/
structure IndexState where
  created_at : Str
  row_count : Nat
  dim : Nat
deriving DecidableEq

/-- The retrieval-cache key the `/ask` route computes for a document
(`ask.py` lines 150 and 208): whatever state the document's index
is in, the version component is the constant `indexVersion`. -/
def askRetrievalKey (_idx : IndexState) (scope docId qn : Str) (topK : Int) : Str :=
  retrKey scope indexVersion docId qn topK

/-- The per-document retrieval-cache lookup of the route (`ask.py`
line 209), over an abstract key-value view of the cache. -/
def askRetrLookup (cache : Str → Option (List RetrievedChunk)) (idx : IndexState)
    (scope docId qn : Str) (topK : Int) : Option (List RetrievedChunk) :=
  cache (askRetrievalKey idx scope docId qn topK)

/-- The semantic-cache gate of the route (`ask.py` lines 157-174): with
both the masked embedding and the response cached, re-embed the masked
current question, compare shapes, and return the stored response verbatim
iff the similarity reaches the threshold.  `sim` stands for the
float cosine computation. -/
def semanticStage (sim : List Score → List Score → Score)
    (encodeVec : Str → List Score) (qn : Str)
    (embHit : CacheGetResult (List Score)) (respHit : CacheGetResult α) : Option α :=
  match embHit, respHit with
  | ⟨true, some prev⟩, ⟨true, some resp⟩ =>
      let mq := maskEntities qn
      let cur := encodeVec mq
      if cur.length = prev.length then
        if SEMANTIC_CACHE_THRESHOLD ≤ sim cur prev then some resp else none
      else none
  | _, _ => none

/-- The global merge of the route (`ask.py` lines 231-233):
`sorted(all_hits, reverse by score)[: max(1, min(top_k, MAX_TOP_K))]`. -/
def askMergeTruncate (allHits : List RetrievedChunk) (topK : Int) : List RetrievedChunk :=
  (sortByScoreDesc allHits).take (max 1 (min topK MAX_TOP_K)).toNat

/-! ## Predicates used by the verification statements -/

/-- A non-empty string with no leading or trailing whitespace — the shape
every chunk emitted by `_recursive_split` has. -/
def strippedNE (s : Str) : Prop := s ≠ [] ∧ pyStrip s = s

/-- The meta log numbers its lines `0, 1, 2, …` in file order. -/
def rowsSequential (meta : List RowMeta) : Prop :=
  ∀ i, (h : i < meta.length) → (meta.get ⟨i, h⟩).row = i

/-- Non-increasing score order. -/
def sortedDescBy (l : List RetrievedChunk) : Prop :=
  List.Pairwise (fun a b : RetrievedChunk => b.score ≤ a.score) l

/-- The chunk list of a build outcome (empty when the build failed). -/
def chunksOf (r : Except String (List Chunk × ChunkMap)) : List Chunk :=
  match r with
  | .ok p => p.1
  | .error _ => []

/-- The question `ask_over_docs` actually submits: cleaned, and cut to
`MAX_QUESTION_CHARS`. -/
def boundedQuestion (question : Str) : Str :=
  let q := cleanQuestion question
  if MAX_QUESTION_CHARS < q.length then q.take MAX_QUESTION_CHARS else q

/-- The source list `ask_over_docs` retrieves. -/
def pipelineSources (search : Str → Str → Int → List RetrievedChunk)
    (question : Str) (docIds : List Str) (topK : Int) : List RetrievedChunk :=
  retrieveMultiDoc search (boundedQuestion question) docIds topK

/-- The QA collaborator result `ask_over_docs` applies its policy to. -/
def pipelineQaResult (search : Str → Str → Int → List RetrievedChunk)
    (qa : Str → Str → QaRes) (fmtScore : Score → Str)
    (question : Str) (docIds : List Str) (topK : Int) : QaRes :=
  qa (boundedQuestion question)
    (truncateContext (buildContext fmtScore (pipelineSources search question docIds topK))
      QA_MAX_CONTENT_CHARS)

/-! ## Library of facts about the Python string primitives -/

theorem pyLstrip_idem (s : Str) : pyLstrip (pyLstrip s) = pyLstrip s :=
  List.dropWhile_idempotent _ _

theorem pyRstrip_idem (s : Str) : pyRstrip (pyRstrip s) = pyRstrip s := by
  simp [pyRstrip, List.dropWhile_idempotent]

theorem pyLstrip_length_le (s : Str) : (pyLstrip s).length ≤ s.length :=
  (List.dropWhile_suffix _).length_le

theorem pyRstrip_length_le (s : Str) : (pyRstrip s).length ≤ s.length := by
  simpa [pyRstrip] using (List.dropWhile_suffix (l := s.reverse) pyIsSpace).length_le

theorem pyStrip_length_le (s : Str) : (pyStrip s).length ≤ s.length :=
  le_trans (pyRstrip_length_le _) (pyLstrip_length_le _)

theorem pyLstrip_head_not_space (s : Str) :
    ∀ c, (pyLstrip s).head? = some c → pyIsSpace c = false := by
  intro c hc
  have h := List.head?_dropWhile_not pyIsSpace s
  rw [pyLstrip] at hc
  rw [hc] at h
  exact h

theorem pyRstrip_getLast_not_space (s : Str) :
    ∀ c, (pyRstrip s).getLast? = some c → pyIsSpace c = false := by
  intro c hc
  have h := List.head?_dropWhile_not pyIsSpace s.reverse
  rw [pyRstrip, List.getLast?_reverse] at hc
  rw [hc] at h
  exact h

theorem pyLstrip_noop (s : Str)
    (h : ∀ c, s.head? = some c → pyIsSpace c = false) : pyLstrip s = s := by
  cases s with
  | nil => rfl
  | cons c t => simp [pyLstrip, List.dropWhile, h c rfl]

theorem pyRstrip_noop (s : Str)
    (h : ∀ c, s.getLast? = some c → pyIsSpace c = false) : pyRstrip s = s := by
  have h2 : ∀ c, s.reverse.head? = some c → pyIsSpace c = false := by
    intro c hc; exact h c (by rwa [List.head?_reverse] at hc)
  have := pyLstrip_noop s.reverse h2
  rw [pyRstrip, pyLstrip] at *
  rw [this, List.reverse_reverse]

/-- `pyRstrip` keeps the head of the string when the result is non-empty
(it is a prefix). -/
theorem pyRstrip_head (s : Str) (h : pyRstrip s ≠ []) :
    (pyRstrip s).head? = s.head? := by
  have hp : pyRstrip s <+: s := by
    apply List.reverse_suffix.mp
    simpa [pyRstrip] using List.dropWhile_suffix (l := s.reverse) pyIsSpace
  obtain ⟨r, hr⟩ := hp
  cases h2 : pyRstrip s with
  | nil => exact absurd h2 h
  | cons a t => rw [← hr, h2]; rfl

theorem pyStrip_idem (s : Str) : pyStrip (pyStrip s) = pyStrip s := by
  rw [pyStrip, pyStrip]
  have hL : pyLstrip (pyRstrip (pyLstrip s)) = pyRstrip (pyLstrip s) := by
    apply pyLstrip_noop
    intro c hc
    by_cases hne : pyRstrip (pyLstrip s) = []
    · rw [hne] at hc; cases hc
    · rw [pyRstrip_head _ hne] at hc
      exact pyLstrip_head_not_space s c hc
  rw [hL, pyRstrip_idem]

theorem strippedNE_getLast (s : Str) (h : strippedNE s) :
    ∀ c, s.getLast? = some c → pyIsSpace c = false := by
  intro c hc
  rw [← h.2, pyStrip] at hc
  exact pyRstrip_getLast_not_space _ c hc

theorem strippedNE_head (s : Str) (h : strippedNE s) :
    ∀ c, s.head? = some c → pyIsSpace c = false := by
  intro c hc
  have hne : pyRstrip (pyLstrip s) ≠ [] := by rw [← pyStrip, h.2]; exact h.1
  rw [← h.2, pyStrip, pyRstrip_head _ hne] at hc
  exact pyLstrip_head_not_space s c hc

theorem pyLstrip_ne_nil (s : Str) (c : Char) (hc : s.getLast? = some c)
    (hcs : pyIsSpace c = false) : pyLstrip s ≠ [] := by
  intro h
  rw [pyLstrip, List.dropWhile_eq_nil_iff] at h
  exact absurd (h c (List.mem_of_mem_getLast? hc)) (by simp [hcs])

/-! ## C8 — cache failures and misses -/

/-- C8 counterexample: when the underlying store operation itself fails
(`client.get` raising on connection loss), `get_json` and `get_embedding`
do NOT return a miss — the exception propagates, because `client.get`
sits outside the `try` block in both methods. -/
theorem getJson_store_error_raises :
    getJson (fun _ => (none : Option Nat)) .connErr = .error "REDIS_CONNECTION_ERROR"
  ∧ getEmbedding (fun _ => none) .connErr = .error "REDIS_CONNECTION_ERROR" :=
  ⟨rfl, rfl⟩

/-- C8 (amended): a missing key or a corrupt payload (one the decode step
rejects) degrades to a miss (`hit = false`) without raising, and a
decodable payload is a hit, for both `get_json` and `get_embedding`;
only a failure of the store operation itself propagates. -/
theorem cache_decode_failure_degrades_to_miss {α : Type}
    (decode : List Nat → Option α) (fromBuffer : List Nat → Option (List Score))
    (raw : List Nat) :
    (getJson decode .missing = .ok ⟨false, none⟩)
  ∧ (decode raw = none → getJson decode (.val raw) = .ok ⟨false, none⟩)
  ∧ (∀ v, decode raw = some v → getJson decode (.val raw) = .ok ⟨true, some v⟩)
  ∧ (getEmbedding fromBuffer .missing = .ok ⟨false, none⟩)
  ∧ (fromBuffer raw = none → getEmbedding fromBuffer (.val raw) = .ok ⟨false, none⟩)
  ∧ (∀ v, fromBuffer raw = some v → getEmbedding fromBuffer (.val raw) = .ok ⟨true, some v⟩) := by
  refine ⟨rfl, ?_, ?_, rfl, ?_, ?_⟩
  · intro h; simp [getJson, h]
  · intro v h; simp [getJson, h]
  · intro h; simp [getEmbedding, h]
  · intro v h; simp [getEmbedding, h]

/-- C8 witness: concrete corrupt and valid payloads. -/
theorem cache_decode_failure_degrades_to_miss_witness :
    (getJson (fun _ => (none : Option Nat)) (.val [1, 2]) = .ok ⟨false, none⟩)
  ∧ (getJson (fun _ => some 7) (.val [1, 2]) = .ok ⟨true, some 7⟩)
  ∧ (getEmbedding (fun _ => none) (.val [1]) = .ok ⟨false, none⟩) := by
  have h1 := cache_decode_failure_degrades_to_miss
    (fun _ => (none : Option Nat)) (fun _ => none) [1, 2]
  have h2 := cache_decode_failure_degrades_to_miss
    (fun _ => (some 7 : Option Nat)) (fun _ => none) [1, 2]
  have h3 := cache_decode_failure_degrades_to_miss
    (fun _ => (none : Option Nat)) (fun _ => none) [1]
  exact ⟨h1.2.1 rfl, h2.2.2.1 7 rfl, h3.2.2.2.2.1 rfl⟩

/-! ## C2 — retrieval-cache key across index rebuilds -/

/-- C2: the retrieval-cache key the `/ask` route computes is the same
string whatever state the document's index is in — the `index_version`
component is the hardcoded constant `"v1"` (`ask.py` line 150), so a
rebuild never changes the key, and an entry cached before a rebuild is
still returned afterwards (contradicting the route's own comment that
"rebuilding an index invalidates cache"). -/
theorem retr_key_constant_across_rebuild :
    (∀ idx1 idx2 : IndexState, ∀ scope docId qn : Str, ∀ topK : Int,
        askRetrievalKey idx1 scope docId qn topK = askRetrievalKey idx2 scope docId qn topK)
  ∧ (∀ (cache : Str → Option (List RetrievedChunk)) (idx1 idx2 : IndexState)
        (scope docId qn : Str) (topK : Int) (v : List RetrievedChunk),
        askRetrLookup cache idx1 scope docId qn topK = some v →
        askRetrLookup cache idx2 scope docId qn topK = some v) :=
  ⟨fun _ _ _ _ _ _ => rfl, fun _ _ _ _ _ _ _ _ h => h⟩

/-- C2 witness: a concrete cache entry survives a concrete rebuild
(`created_at`, `row_count` and `dim` of the index all change). -/
theorem retr_key_constant_across_rebuild_witness :
    askRetrLookup (fun _ => some []) ⟨"2025-02-02".data, 9, 384⟩
      "docs".data "d0".data "what is it".data 5 = some [] :=
  retr_key_constant_across_rebuild.2 (fun _ => some [])
    ⟨"2025-01-01".data, 3, 384⟩ ⟨"2025-02-02".data, 9, 384⟩
    "docs".data "d0".data "what is it".data 5 [] rfl

/-! ## C5 — semantic cache bucketing and threshold -/

/-- C5 counterexample: "192" and "1992" are both bare-number tokens
(each is replaced in isolation by the `RE_NUMBER` substitution), yet two
questions differing only in that token mask to different strings —
`RE_YEAR` runs first and captures "1992", so the masked strings (and
hence the semantic buckets) differ. -/
theorem mask_entities_cross_class_counterexample :
    reSub reNumber "[NUMBER]".data "192".data = "[NUMBER]".data
  ∧ reSub reNumber "[NUMBER]".data "1992".data = "[NUMBER]".data
  ∧ maskEntities "price 192".data = "price [NUMBER]".data
  ∧ maskEntities "price 1992".data = "price [YEAR]".data
  ∧ maskEntities "price 192".data ≠ maskEntities "price 1992".data := by
  refine ⟨by decide, by decide, by decide, by decide, by decide⟩

/-- C5 (amended): two questions with the same masked form share the
semantic bucket (`sem_key` depends on the question only through
`mask_entities`); and the lookup recomputes the embedding of the current
masked question and returns the stored response verbatim exactly when
the similarity reaches `SEMANTIC_CACHE_THRESHOLD`, falling through
otherwise or when either stored half is absent. -/
theorem semantic_bucket_and_threshold {α : Type}
    (scope pv q1 q2 : Str) (topK : Int)
    (sim : List Score → List Score → Score) (encodeVec : Str → List Score)
    (qn : Str) (prev : List Score) (resp : α) :
    (maskEntities q1 = maskEntities q2 →
        semKey scope pv q1 topK = semKey scope pv q2 topK)
  ∧ ((encodeVec (maskEntities qn)).length = prev.length →
      (SEMANTIC_CACHE_THRESHOLD ≤ sim (encodeVec (maskEntities qn)) prev →
          semanticStage sim encodeVec qn ⟨true, some prev⟩ ⟨true, some resp⟩ = some resp)
    ∧ (sim (encodeVec (maskEntities qn)) prev < SEMANTIC_CACHE_THRESHOLD →
          semanticStage sim encodeVec qn ⟨true, some prev⟩ ⟨true, some resp⟩ = none))
  ∧ ((encodeVec (maskEntities qn)).length ≠ prev.length →
        semanticStage sim encodeVec qn ⟨true, some prev⟩ ⟨true, some resp⟩ = none)
  ∧ (∀ respHit : CacheGetResult α,
        semanticStage sim encodeVec qn ⟨false, none⟩ respHit = none) := by
  refine ⟨?_, ?_, ?_, ?_⟩
  · intro h; simp only [semKey, h]
  · intro hlen
    constructor
    · intro hsim; simp [semanticStage, hlen, hsim]
    · intro hsim; simp [semanticStage, hlen, not_le.mpr hsim]
  · intro hlen; simp [semanticStage, hlen]
  · intro respHit; cases respHit with
    | mk hit value => cases hit <;> cases value <;> rfl

/-- C5 witness: concrete same-class questions share a bucket, and a
concrete above-threshold lookup returns the stored response while a
below-threshold one falls through. -/
theorem semantic_bucket_and_threshold_witness :
    maskEntities "cost 5".data = maskEntities "cost 9".data
  ∧ semKey "all".data "pv".data "cost 5".data 5
      = semKey "all".data "pv".data "cost 9".data 5
  ∧ semanticStage (fun _ _ => 1) (fun _ => [1]) "cost 5".data
      ⟨true, some [1]⟩ ⟨true, some (42 : Nat)⟩ = some 42
  ∧ semanticStage (fun _ _ => 0) (fun _ => [1]) "cost 5".data
      ⟨true, some [1]⟩ ⟨true, some (42 : Nat)⟩ = none := by
  have hmask : maskEntities "cost 5".data = maskEntities "cost 9".data := by decide
  have h1 := semantic_bucket_and_threshold (α := Nat) "all".data "pv".data
    "cost 5".data "cost 9".data 5 (fun _ _ => 1) (fun _ => [1]) "cost 5".data [1] 42
  have h2 := semantic_bucket_and_threshold (α := Nat) "all".data "pv".data
    "cost 5".data "cost 9".data 5 (fun _ _ => 0) (fun _ => [1]) "cost 5".data [1] 42
  exact ⟨hmask, h1.1 hmask, (h1.2.1 rfl).1 (by norm_num [SEMANTIC_CACHE_THRESHOLD]),
    (h2.2.1 rfl).2 (by norm_num [SEMANTIC_CACHE_THRESHOLD])⟩

/-! ## C3 — merge then truncate -/

theorem sortByScoreDesc_sorted (l : List RetrievedChunk) :
    sortedDescBy (sortByScoreDesc l) := by
  unfold sortedDescBy sortByScoreDesc
  refine List.Pairwise.imp ?_ (List.sorted_mergeSort ?_ ?_ l)
  · intro a b hab; simpa using hab
  · intro a b c hab hbc
    simp only [decide_eq_true_eq] at *
    exact le_trans hbc hab
  · intro a b
    simp only [Bool.or_eq_true, decide_eq_true_eq]
    exact le_total b.score a.score

theorem sortByScoreDesc_length (l : List RetrievedChunk) :
    (sortByScoreDesc l).length = l.length :=
  (List.mergeSort_perm l _).length_eq

theorem sortedDescBy_take (l : List RetrievedChunk) (n : Nat)
    (h : sortedDescBy l) : sortedDescBy (l.take n) :=
  List.Pairwise.sublist (List.take_sublist n l) h

/-- The two clamping steps of `retrieve_multi_doc` compute
`max 1 (min top_k MAX_TOP_K)`, and so does the route's slice bound. -/
theorem clamp_topK (topK : Int) :
    (if (if topK < 1 then 1 else topK) > MAX_TOP_K then MAX_TOP_K
     else (if topK < 1 then 1 else topK)) = max 1 (min topK MAX_TOP_K) := by
  unfold MAX_TOP_K
  split_ifs <;> omega

theorem clamp_topK_fix (topK : Int) :
    max 1 (min (max 1 (min topK MAX_TOP_K)) MAX_TOP_K) = max 1 (min topK MAX_TOP_K) := by
  unfold MAX_TOP_K
  omega

/-- C3 counterexample: with `top_k = 0` and one document contributing one
hit, the result has length 1, not `min(top_k, total_hits) = 0` — the code
clamps `top_k` into `[1, MAX_TOP_K]` first. -/
theorem retrieve_multi_doc_zero_topk_counterexample :
    (retrieveMultiDoc (fun _ _ _ => [⟨"d".data, "c".data, 1, none, none, []⟩])
        "q".data ["d".data] 0).length = 1
  ∧ ¬ ((retrieveMultiDoc (fun _ _ _ => [⟨"d".data, "c".data, 1, none, none, []⟩])
        "q".data ["d".data] 0).length = min (Int.toNat 0) 1) := by
  have hlen : (retrieveMultiDoc (fun _ _ _ => [⟨"d".data, "c".data, 1, none, none, []⟩])
      "q".data ["d".data] 0).length = 1 := by
    dsimp only [retrieveMultiDoc]
    rw [List.length_take, sortByScoreDesc_length]
    simp [MAX_TOP_K]
  exact ⟨hlen, by rw [hlen]; decide⟩

/-- C3 (amended): for the clamped `k = max 1 (min top_k MAX_TOP_K)`
(requested `top_k` outside `[1, MAX_TOP_K]` is clamped), both
`retrieve_multi_doc` and the `/ask` route's merge return the
concatenated per-document hits sorted by non-increasing score and
truncated to length `min(k, total_hits)`. -/
theorem merge_then_truncate (search : Str → Str → Int → List RetrievedChunk)
    (question : Str) (docIds : List Str) (topK : Int)
    (allHits : List RetrievedChunk) :
    (retrieveMultiDoc search question docIds topK).length
      = min (max 1 (min topK MAX_TOP_K)).toNat
          (docIds.flatMap
            (fun did => search did question (max 1 (min topK MAX_TOP_K)))).length
  ∧ sortedDescBy (retrieveMultiDoc search question docIds topK)
  ∧ (askMergeTruncate allHits topK).length
      = min (max 1 (min topK MAX_TOP_K)).toNat allHits.length
  ∧ sortedDescBy (askMergeTruncate allHits topK) := by
  have hunfold : retrieveMultiDoc search question docIds topK
      = (sortByScoreDesc (docIds.flatMap
          (fun did => search did question (max 1 (min topK MAX_TOP_K))))).take
            (max 1 (min topK MAX_TOP_K)).toNat := by
    dsimp only [retrieveMultiDoc]
    rw [clamp_topK, clamp_topK_fix]
  refine ⟨?_, ?_, ?_, ?_⟩
  · rw [hunfold, List.length_take, sortByScoreDesc_length]
  · rw [hunfold]
    exact sortedDescBy_take _ _ (sortByScoreDesc_sorted _)
  · unfold askMergeTruncate
    rw [List.length_take, sortByScoreDesc_length]
  · exact sortedDescBy_take _ _ (sortByScoreDesc_sorted _)

/-! ## C4 — no-answer policy -/

/-- `ask_over_docs` past the empty-question guard, written with the named
question/sources/QA-result stages. -/
theorem askOverDocs_policy_shape (search : Str → Str → Int → List RetrievedChunk)
    (qa : Str → Str → QaRes) (fmtScore : Score → Str)
    (question : Str) (docIds : List Str) (topK : Int)
    (hq : cleanQuestion question ≠ []) :
    askOverDocs search qa fmtScore question docIds topK =
      (if (pipelineQaResult search qa fmtScore question docIds topK).answer.isEmpty
          || (match (pipelineQaResult search qa fmtScore question docIds topK).score with
              | some s => decide (s < QA_MIN_SCORE)
              | none => false)
       then ⟨REFUSAL, (pipelineQaResult search qa fmtScore question docIds topK).score,
              pipelineSources search question docIds topK⟩
       else ⟨(pipelineQaResult search qa fmtScore question docIds topK).answer,
              (pipelineQaResult search qa fmtScore question docIds topK).score,
              pipelineSources search question docIds topK⟩) := by
  dsimp only [askOverDocs, pipelineQaResult, pipelineSources, boundedQuestion]
  rw [if_neg (by simpa [List.isEmpty_iff] using hq)]

/-- C4: when the pipeline reaches the QA collaborator (non-empty cleaned
question), an empty answer or a score below `QA_MIN_SCORE` yields the
fixed refusal string with the collaborator's score as confidence and the
retrieved sources unchanged; otherwise the collaborator's answer and
score pass through with the same sources. -/
theorem no_answer_policy (search : Str → Str → Int → List RetrievedChunk)
    (qa : Str → Str → QaRes) (fmtScore : Score → Str)
    (question : Str) (docIds : List Str) (topK : Int)
    (hq : cleanQuestion question ≠ []) :
    ((pipelineQaResult search qa fmtScore question docIds topK).answer = []
        ∨ (∃ s, (pipelineQaResult search qa fmtScore question docIds topK).score = some s
            ∧ s < QA_MIN_SCORE) →
      askOverDocs search qa fmtScore question docIds topK =
        ⟨REFUSAL, (pipelineQaResult search qa fmtScore question docIds topK).score,
          pipelineSources search question docIds topK⟩)
  ∧ ((pipelineQaResult search qa fmtScore question docIds topK).answer ≠ []
      → (∀ s, (pipelineQaResult search qa fmtScore question docIds topK).score = some s
          → QA_MIN_SCORE ≤ s)
      → askOverDocs search qa fmtScore question docIds topK =
          ⟨(pipelineQaResult search qa fmtScore question docIds topK).answer,
            (pipelineQaResult search qa fmtScore question docIds topK).score,
            pipelineSources search question docIds topK⟩) := by
  rw [askOverDocs_policy_shape search qa fmtScore question docIds topK hq]
  constructor
  · intro hcond
    rw [if_pos]
    rcases hcond with hans | ⟨s, hs, hlt⟩
    · simp [List.isEmpty_iff, hans]
    · rw [hs]
      simp [hlt]
  · intro hans hsc
    rw [if_neg]
    simp only [Bool.or_eq_true, not_or, List.isEmpty_iff]
    refine ⟨hans, ?_⟩
    cases h : (pipelineQaResult search qa fmtScore question docIds topK).score with
    | none => simp
    | some s => simpa using not_lt.mpr (hsc s h)

/-- C4 witness: a collaborator scoring 0.1 < QA_MIN_SCORE = 0.15 with an
empty answer yields the refusal with that score and the (empty) sources. -/
theorem no_answer_policy_witness :
    cleanQuestion "q".data ≠ []
  ∧ askOverDocs (fun _ _ _ => []) (fun _ _ => ⟨[], some (1 / 10)⟩) (fun _ => [])
      "q".data [] 5 = ⟨REFUSAL, some (1 / 10), []⟩ := by
  have h := no_answer_policy (fun _ _ _ => []) (fun _ _ => (⟨[], some (1 / 10)⟩ : QaRes))
    (fun _ => []) "q".data [] 5 (by decide)
  have h2 := h.1 (Or.inl rfl)
  refine ⟨by decide, ?_⟩
  rw [h2]
  simp [pipelineSources, retrieveMultiDoc, sortByScoreDesc, pipelineQaResult]

/-! ## C7 — build atomicity on error -/

/-- C7: a failed embedding build is NOT atomic.  Starting from a document
with a previous successful build (all three embedding artifacts on disk)
whose `chunks.jsonl` now holds two chunks, a forced re-embed with
`MAX_CHUNKS_TO_EMBED = 1` and batch size 1 raises
`TOO_MANY_CHUNKS_TO_EMBED` after the first batch — leaving
`embeddings_meta.jsonl` truncated to a single (partial) row while the
stale `embeddings.npy` and `embeddings_info.json` survive, so the
`already_embedded` existence check still passes and reports the old
`row_count = 5`, which no longer matches the 1-line meta log. -/
theorem failed_embed_leaves_partial_meta :
    (embedDocumentChunks (fun ts => ⟨2, ts.length, 3⟩) "d".data "T1".data 1 1
        ⟨some [⟨"ca".data, "d".data, 1, 0, "t0".data⟩, ⟨"cb".data, "d".data, 1, 1, "t1".data⟩],
         some [⟨0, "x".data, "d".data, 1, 0⟩], some (5, 3),
         some ⟨"d".data, 5, 3, "m".data, true, 64, "cv".data, "T0".data⟩⟩).2
      = .error "TOO_MANY_CHUNKS_TO_EMBED"
  ∧ (embedDocumentChunks (fun ts => ⟨2, ts.length, 3⟩) "d".data "T1".data 1 1
        ⟨some [⟨"ca".data, "d".data, 1, 0, "t0".data⟩, ⟨"cb".data, "d".data, 1, 1, "t1".data⟩],
         some [⟨0, "x".data, "d".data, 1, 0⟩], some (5, 3),
         some ⟨"d".data, 5, 3, "m".data, true, 64, "cv".data, "T0".data⟩⟩).1.metaFile
      = some [⟨0, "ca".data, "d".data, 1, 0⟩]
  ∧ alreadyEmbedded
      (embedDocumentChunks (fun ts => ⟨2, ts.length, 3⟩) "d".data "T1".data 1 1
        ⟨some [⟨"ca".data, "d".data, 1, 0, "t0".data⟩, ⟨"cb".data, "d".data, 1, 1, "t1".data⟩],
         some [⟨0, "x".data, "d".data, 1, 0⟩], some (5, 3),
         some ⟨"d".data, 5, 3, "m".data, true, 64, "cv".data, "T0".data⟩⟩).1
      = true
  ∧ (embedDocumentChunks (fun ts => ⟨2, ts.length, 3⟩) "d".data "T1".data 1 1
        ⟨some [⟨"ca".data, "d".data, 1, 0, "t0".data⟩, ⟨"cb".data, "d".data, 1, 1, "t1".data⟩],
         some [⟨0, "x".data, "d".data, 1, 0⟩], some (5, 3),
         some ⟨"d".data, 5, 3, "m".data, true, 64, "cv".data, "T0".data⟩⟩).1.infoFile
      = some ⟨"d".data, 5, 3, "m".data, true, 64, "cv".data, "T0".data⟩ := by
  refine ⟨rfl, rfl, rfl, rfl⟩

/-! ## C6 — deterministic chunking -/

theorem except_error_bind {α β : Type} (e : String) (f : α → Except String β) :
    (Except.error e >>= f) = Except.error e := rfl

theorem except_ok_bind {α β : Type} (a : α) (f : α → Except String β) :
    (Except.ok a >>= f) = f a := rfl

/-- Invariants survive an `Except`-valued fold. -/
theorem foldlM_except_inv {σ α : Type} (P : σ → Prop) (f : σ → α → Except String σ)
    (l : List α) (hf : ∀ s a, a ∈ l → ∀ s2, f s a = .ok s2 → P s → P s2) :
    ∀ s s2, l.foldlM f s = .ok s2 → P s → P s2 := by
  induction l with
  | nil =>
      intro s s2 h hp
      simp only [List.foldlM_nil] at h
      cases h
      exact hp
  | cons a l ih =>
      intro s s2 h hp
      rw [List.foldlM_cons] at h
      cases hfa : f s a with
      | error e => rw [hfa, except_error_bind] at h; cases h
      | ok s1 =>
          rw [hfa, except_ok_bind] at h
          exact ih (fun s a ha => hf s a (List.mem_cons_of_mem _ ha)) s1 s2 h
            (hf s a (List.mem_cons_self _ _) s1 hfa hp)

/-- Every chunk `chunkStep` appends carries the stable id of its own
`(doc_id, page, chunk_index, text)` fields. -/
theorem chunkStep_id_inv (docId : Str) (pageNum : Int) (source : Str)
    (confidence : Option Score) (pageText : Str) (st st2 : ChunkBuildSt) (ctext : Str)
    (h : chunkStep docId pageNum source confidence pageText st ctext = .ok st2)
    (hp : ∀ c ∈ st.chunks,
      c.chunk_id = stableChunkId docId c.page c.chunk_index c.text ∧ c.doc_id = docId) :
    ∀ c ∈ st2.chunks,
      c.chunk_id = stableChunkId docId c.page c.chunk_index c.text ∧ c.doc_id = docId := by
  unfold chunkStep at h
  split at h
  · cases h; exact hp
  · split at h <;> split at h <;>
      first
        | (cases h; done)
        | (cases h
           intro c hc
           rcases List.mem_append.mp hc with hold | hnew
           · exact hp c hold
           · rcases List.mem_singleton.mp hnew with rfl
             constructor <;> simp)

/-- `buildPage` preserves the stable-id invariant. -/
theorem buildPage_id_inv (docId : Str) (maxLen overlap : Nat) (seps : List Str)
    (st st2 : ChunkBuildSt) (p : PageObj)
    (h : buildPage docId maxLen overlap seps st p = .ok st2)
    (hp : ∀ c ∈ st.chunks,
      c.chunk_id = stableChunkId docId c.page c.chunk_index c.text ∧ c.doc_id = docId) :
    ∀ c ∈ st2.chunks,
      c.chunk_id = stableChunkId docId c.page c.chunk_index c.text ∧ c.doc_id = docId := by
  unfold buildPage at h
  split at h
  · cases h; exact hp
  · exact foldlM_except_inv _ _ _
      (fun s a _ s3 hs => chunkStep_id_inv docId p.page p.source p.confidence _ s s3 a hs)
      _ st2 h hp

/-- C6: two runs of `build_chunks_for_doc` on the same document and page
text (only the manifest timestamp differs between runs; the chunking
parameters are the fixed settings) produce identical chunk lists — in
particular the same length and pairwise identical chunk ids — and every
produced chunk id is the deterministic stable hash of its own
`(doc_id, page, chunk_index, text-prefix)`. -/
theorem chunking_deterministic (docId : Str) (pages : List PageObj) (t1 t2 : Str) :
    chunksOf (buildChunksForDoc docId pages t1) = chunksOf (buildChunksForDoc docId pages t2)
  ∧ ∀ c ∈ chunksOf (buildChunksForDoc docId pages t1),
      c.chunk_id = stableChunkId docId c.page c.chunk_index c.text ∧ c.doc_id = docId := by
  constructor
  · cases h : pages.foldlM
        (buildPage docId CHUNK_SIZE_CHARS CHUNK_OVERLAP_CHARS CHUNK_SEPARATORS)
        ⟨0, 0, [], []⟩ with
    | error e => simp [buildChunksForDoc, chunksOf, h]
    | ok st => simp [buildChunksForDoc, chunksOf, h]
  · intro c hc
    unfold buildChunksForDoc chunksOf at hc
    revert hc
    cases h : pages.foldlM
        (buildPage docId CHUNK_SIZE_CHARS CHUNK_OVERLAP_CHARS CHUNK_SEPARATORS)
        ⟨0, 0, [], []⟩ with
    | error e => simp
    | ok st =>
        simp only []
        intro hc
        exact foldlM_except_inv
          (fun s => ∀ c ∈ s.chunks,
            c.chunk_id = stableChunkId docId c.page c.chunk_index c.text ∧ c.doc_id = docId)
          _ _ (fun s a _ s2 hs => buildPage_id_inv docId _ _ _ s s2 a hs)
          _ st h (by simp) c hc

/-- C6 witness: a one-page document built with two different timestamps;
the produced chunk (id `11d70a75…`, the stable hash of
`"d:1:0:" + "hello world"`) is identical across the runs. -/
theorem chunking_deterministic_witness :
    chunksOf (buildChunksForDoc "d".data [⟨1, "hello world".data, "pdf".data, none⟩] "A".data)
      = chunksOf (buildChunksForDoc "d".data [⟨1, "hello world".data, "pdf".data, none⟩] "B".data)
  ∧ (⟨"11d70a75b2fe16d494a8246b".data, "d".data, 1, 0, "hello world".data, 0, 11,
        "pdf".data, none⟩ : Chunk)
      ∈ chunksOf (buildChunksForDoc "d".data [⟨1, "hello world".data, "pdf".data, none⟩] "A".data)
  ∧ "11d70a75b2fe16d494a8246b".data = stableChunkId "d".data 1 0 "hello world".data := by
  have h := chunking_deterministic "d".data [⟨1, "hello world".data, "pdf".data, none⟩]
    "A".data "B".data
  have hmem : (⟨"11d70a75b2fe16d494a8246b".data, "d".data, 1, 0, "hello world".data, 0, 11,
      "pdf".data, none⟩ : Chunk)
      ∈ chunksOf (buildChunksForDoc "d".data [⟨1, "hello world".data, "pdf".data, none⟩]
          "A".data) := by decide
  exact ⟨h.1, hmem, (h.2 _ hmem).1⟩

/-! ## C1 — row/chunk linkage invariant -/

theorem batchedGo_flatten {α : Type} (bs : Nat) (l : List α) :
    ∀ batch, (batchedGo bs batch l).flatten = batch ++ l := by
  induction l with
  | nil =>
      intro batch
      by_cases h : batch.isEmpty = true
      · simp [batchedGo, h, List.isEmpty_iff.mp h]
      · simp [batchedGo, h]
  | cons x rest ih =>
      intro batch
      simp only [batchedGo]
      split
      · simp [ih]
      · simp [ih]

theorem batched_flatten {α : Type} (l : List α) (bs : Nat) :
    (batched l bs).flatten = l := by
  simpa using batchedGo_flatten bs l []

/-- Specification of a clean (error-free) run of the embed batch loop:
the meta lines append one chunk id per chunk in stream order, with row
numbers continuing `rc, rc + 1, …`. -/
theorem embedLoop_ok_spec (encode : List Str → EmbMatrix) (maxToEmbed : Nat)
    (batches : List (List ChunkRec)) :
    ∀ (m : List RowMeta) (rc dm : Nat),
      (embedLoop encode maxToEmbed batches ⟨m, rc, dm, none⟩).err = none →
      (embedLoop encode maxToEmbed batches ⟨m, rc, dm, none⟩).meta.map RowMeta.chunk_id
          = m.map RowMeta.chunk_id ++ batches.flatten.map ChunkRec.chunk_id
    ∧ (embedLoop encode maxToEmbed batches ⟨m, rc, dm, none⟩).rowCount
          = rc + batches.flatten.length
    ∧ (embedLoop encode maxToEmbed batches ⟨m, rc, dm, none⟩).meta.map RowMeta.row
          = m.map RowMeta.row ++ List.range' rc batches.flatten.length := by
  induction batches with
  | nil => intro m rc dm _; simp [embedLoop]
  | cons batch rest ih =>
      intro m rc dm herr
      by_cases hceil : maxToEmbed < rc + (batch.map (fun it => it.text)).length
      · rw [embedLoop] at herr
        simp only [if_pos hceil] at herr
        cases herr
      · by_cases hdim : (encode (batch.map (fun it => it.text))).ndim ≠ 2
        · rw [embedLoop] at herr
          simp only [if_neg hceil, if_pos hdim] at herr
          cases herr
        · have hstep : embedLoop encode maxToEmbed (batch :: rest) ⟨m, rc, dm, none⟩
              = embedLoop encode maxToEmbed rest
                  ⟨m ++ batch.enum.map (fun p =>
                      (⟨rc + p.1, p.2.chunk_id, p.2.doc_id, p.2.page,
                        p.2.chunk_index⟩ : RowMeta)),
                    rc + batch.length,
                    if dm = 0 then (encode (batch.map (fun it => it.text))).cols else dm,
                    none⟩ := by
            rw [embedLoop]
            simp only [if_neg hceil, if_neg hdim]
          rw [hstep] at herr ⊢
          obtain ⟨hcid, hcount, hrow⟩ := ih _ _ _ herr
          have hmap_cid : (batch.enum.map (fun p =>
              (⟨rc + p.1, p.2.chunk_id, p.2.doc_id, p.2.page,
                p.2.chunk_index⟩ : RowMeta))).map RowMeta.chunk_id
              = batch.map ChunkRec.chunk_id := by
            rw [List.map_map]
            have : (RowMeta.chunk_id ∘ fun p : Nat × ChunkRec =>
                (⟨rc + p.1, p.2.chunk_id, p.2.doc_id, p.2.page,
                  p.2.chunk_index⟩ : RowMeta))
                = ChunkRec.chunk_id ∘ Prod.snd := rfl
            rw [this, ← List.map_map, List.enum_map_snd]
          have hmap_row : (batch.enum.map (fun p =>
              (⟨rc + p.1, p.2.chunk_id, p.2.doc_id, p.2.page,
                p.2.chunk_index⟩ : RowMeta))).map RowMeta.row
              = List.range' rc batch.length := by
            rw [List.map_map]
            have : (RowMeta.row ∘ fun p : Nat × ChunkRec =>
                (⟨rc + p.1, p.2.chunk_id, p.2.doc_id, p.2.page,
                  p.2.chunk_index⟩ : RowMeta))
                = (fun x => rc + x) ∘ Prod.fst := rfl
            rw [this, ← List.map_map, List.enum_map_fst, ← List.range'_eq_map_range]
          refine ⟨?_, ?_, ?_⟩
          · rw [hcid]
            simp only [List.map_append, hmap_cid, List.flatten_cons, List.map_append,
              List.append_assoc]
          · rw [hcount]
            rw [List.flatten_cons, List.length_append]
            omega
          · rw [hrow]
            simp only [List.map_append, hmap_row, List.flatten_cons, List.length_append,
              List.append_assoc]
            have h3 := List.range'_append rc batch.length rest.flatten.length 1
            simp only [one_mul] at h3
            rw [h3, Nat.add_comm rest.flatten.length batch.length]

/-- Folding sequentially-numbered meta lines reproduces exactly the
chunk-id list (no gap padding, no overwrite). -/
theorem loadRowToChunkId_go_seq (meta : List RowMeta) :
    ∀ acc : List Str,
      meta.map RowMeta.row = List.range' acc.length meta.length →
      meta.foldl (fun rowToId obj =>
          if obj.row = rowToId.length then rowToId ++ [obj.chunk_id]
          else rowToId ++ List.replicate (obj.row - rowToId.length) [] ++ [obj.chunk_id]) acc
        = acc ++ meta.map RowMeta.chunk_id := by
  induction meta with
  | nil => intro acc _; simp
  | cons m rest ih =>
      intro acc h
      simp only [List.map_cons, List.length_cons, List.range'] at h
      obtain ⟨hrow, htail⟩ := List.cons_eq_cons.mp h
      rw [List.foldl_cons, if_pos hrow]
      have h2 := ih (acc ++ [m.chunk_id])
        (by simpa [List.length_append] using htail)
      rw [h2]
      simp [List.append_assoc]

theorem loadRowToChunkId_seq (meta : List RowMeta)
    (h : meta.map RowMeta.row = List.range meta.length) :
    loadRowToChunkId meta = meta.map RowMeta.chunk_id := by
  unfold loadRowToChunkId
  have := loadRowToChunkId_go_seq meta []
    (by simpa [List.range_eq_range'] using h)
  simpa using this

/-- Per-hit behaviour of the resolution loop in `RetrieverService.search`:
out-of-range rows and empty mappings are skipped; a produced result
carries exactly the chunk id recorded for its row. -/
theorem resolveHit_spec (docId2 : Str) (rowToId : List Str)
    (chunkMap : List (Str × ChunkRec)) (score : Score) (row : Int) :
    ((row < 0 ∨ (rowToId.length : Int) ≤ row) →
        resolveHit docId2 rowToId chunkMap (score, row) = none)
  ∧ (¬ (row < 0 ∨ (rowToId.length : Int) ≤ row) →
      (rowToId.getD row.toNat [] = [] →
          resolveHit docId2 rowToId chunkMap (score, row) = none)
    ∧ ∀ rc, resolveHit docId2 rowToId chunkMap (score, row) = some rc →
          rc.chunk_id = rowToId.getD row.toNat []) := by
  constructor
  · intro h; simp only [resolveHit]; rw [if_pos h]
  · intro h
    constructor
    · intro hcid
      simp only [resolveHit]
      rw [if_neg h]
      rw [hcid]
      simp
    · intro rc hrc
      simp only [resolveHit] at hrc
      rw [if_neg h] at hrc
      by_cases hcid : (List.isEmpty (rowToId.getD row.toNat [])) = true
      · rw [if_pos hcid] at hrc; cases hrc
      · rw [if_neg hcid] at hrc
        have h2 := Option.some.inj hrc
        rw [← h2]

/-- Every result of the search loop arises from one of the returned
`(score, row)` pairs. -/
theorem searchResolve_mem (docId2 : Str) (rowToId : List Str)
    (chunkMap : List (Str × ChunkRec)) (hits : List (Score × Int)) :
    ∀ rc ∈ searchResolve docId2 rowToId chunkMap hits,
      ∃ hit ∈ hits, resolveHit docId2 rowToId chunkMap hit = some rc := by
  induction hits with
  | nil => simp [searchResolve]
  | cons hit rest ih =>
      intro rc hrc
      rw [searchResolve] at hrc
      cases hres : resolveHit docId2 rowToId chunkMap hit with
      | some rc2 =>
          rw [hres] at hrc
          rcases List.mem_cons.mp hrc with rfl | htail
          · exact ⟨hit, List.mem_cons_self _ _, hres⟩
          · obtain ⟨h2, hm, he⟩ := ih rc htail
            exact ⟨h2, List.mem_cons_of_mem _ hm, he⟩
      | none =>
          rw [hres] at hrc
          obtain ⟨h2, hm, he⟩ := ih rc hrc
          exact ⟨h2, List.mem_cons_of_mem _ hm, he⟩

/-- C1: after a successful `embed_document_chunks` run, the meta log is
gap-free in append order (`row` of line `i` is `i`), one line per chunk
in stream order; its line count equals the `row_count` of both the result
and the info manifest; the retriever's row→chunk-id table is exactly the
per-row chunk-id list; and every hit a vector search returns either
resolves to the chunk id recorded for its row or is skipped (row out of
range or empty mapping) — never to a wrong chunk. -/
theorem row_chunk_linkage (encode : List Str → EmbMatrix) (docId createdAt : Str)
    (batchSize maxToEmbed : Nat) (fs fs2 : DocFS) (chunks : List ChunkRec)
    (res : EmbedResult) (hchunks : fs.chunksFile = some chunks)
    (hrun : embedDocumentChunks encode docId createdAt batchSize maxToEmbed fs
      = (fs2, .ok res)) :
    ∃ meta : List RowMeta,
      fs2.metaFile = some meta
    ∧ meta.map RowMeta.row = List.range meta.length
    ∧ meta.map RowMeta.chunk_id = chunks.map ChunkRec.chunk_id
    ∧ meta.length = res.row_count
    ∧ (∃ info, fs2.infoFile = some info ∧ info.row_count = meta.length)
    ∧ loadRowToChunkId meta = meta.map RowMeta.chunk_id
    ∧ (∀ (docId2 : Str) (chunkMap : List (Str × ChunkRec)) (score : Score) (row : Int),
        ((row < 0 ∨ (meta.length : Int) ≤ row) →
            resolveHit docId2 (loadRowToChunkId meta) chunkMap (score, row) = none)
      ∧ (¬ (row < 0 ∨ (meta.length : Int) ≤ row) →
          ∀ rc, resolveHit docId2 (loadRowToChunkId meta) chunkMap (score, row) = some rc →
            rc.chunk_id = (meta.map RowMeta.chunk_id).getD row.toNat []))
    ∧ (∀ (docId2 : Str) (chunkMap : List (Str × ChunkRec)) (hits : List (Score × Int)),
        ∀ rc ∈ searchResolve docId2 (loadRowToChunkId meta) chunkMap hits,
          ∃ hit ∈ hits, resolveHit docId2 (loadRowToChunkId meta) chunkMap hit = some rc) := by
  unfold embedDocumentChunks at hrun
  rw [hchunks] at hrun
  dsimp only at hrun
  cases herr : (embedLoop encode maxToEmbed (batched chunks batchSize) ⟨[], 0, 0, none⟩).err with
  | some e => rw [herr] at hrun; cases hrun
  | none =>
      rw [herr] at hrun
      set out := embedLoop encode maxToEmbed (batched chunks batchSize) ⟨[], 0, 0, none⟩
        with hout
      have hfs2 : fs2 = ⟨some chunks, some out.meta, some (out.rowCount, out.dim),
          some ⟨docId, out.rowCount, out.dim, EMBEDDING_MODEL_NAME,
            EMBEDDING_NORMALIZE, batchSize, chunkingVersion, createdAt⟩⟩ :=
        ((Prod.mk.injEq _ _ _ _).mp hrun).1.symm
      have hres : res = ⟨docId, out.rowCount, out.dim⟩ :=
        (Except.ok.inj ((Prod.mk.injEq _ _ _ _).mp hrun).2).symm
      obtain ⟨hcid, hcount, hrow⟩ :=
        embedLoop_ok_spec encode maxToEmbed (batched chunks batchSize) [] 0 0 herr
      rw [batched_flatten] at hcid hcount hrow
      simp only [List.map_nil, List.nil_append, Nat.zero_add] at hcid hcount hrow
      rw [← hout] at hcid hcount hrow
      have hlen : out.meta.length = chunks.length := by
        have h1 : (out.meta.map RowMeta.row).length = out.meta.length := List.length_map _ _
        rw [hrow] at h1
        simpa [List.length_range'] using h1.symm
      have hrows : out.meta.map RowMeta.row = List.range out.meta.length := by
        rw [hrow, hlen, List.range_eq_range']
      have hload : loadRowToChunkId out.meta = out.meta.map RowMeta.chunk_id :=
        loadRowToChunkId_seq out.meta hrows
      have hloadlen : (loadRowToChunkId out.meta).length = out.meta.length := by
        rw [hload, List.length_map]
      refine ⟨out.meta, by rw [hfs2], hrows, hcid, ?_, ?_, hload, ?_, ?_⟩
      · rw [hres, hlen, hcount]
      · exact ⟨_, by rw [hfs2], by simp [hlen, hcount]⟩
      · intro docId2 chunkMap score row
        have hspec := resolveHit_spec docId2 (loadRowToChunkId out.meta) chunkMap score row
        constructor
        · intro hcond
          exact hspec.1 (by rwa [hloadlen])
        · intro hcond rc hsome
          have := (hspec.2 (by rwa [hloadlen])).2 rc hsome
          rwa [hload] at this
      · intro docId2 chunkMap hits rc hmem
        exact searchResolve_mem docId2 (loadRowToChunkId out.meta) chunkMap hits rc hmem

/-- C1 witness: three chunks embedded with batch size 2 produce the meta
rows `0, 1, 2` carrying ids `a, b, c` in order, and the retriever's
row→id table is exactly that id list. -/
theorem row_chunk_linkage_witness :
    ([⟨0, "a".data, "d".data, 1, 0⟩, ⟨1, "b".data, "d".data, 1, 1⟩,
        (⟨2, "c".data, "d".data, 1, 2⟩ : RowMeta)].map RowMeta.row = List.range 3)
  ∧ loadRowToChunkId [⟨0, "a".data, "d".data, 1, 0⟩, ⟨1, "b".data, "d".data, 1, 1⟩,
        ⟨2, "c".data, "d".data, 1, 2⟩]
      = ["a".data, "b".data, "c".data] := by
  obtain ⟨meta, hm, hrows, hcid, hcount, hinfo, hload, hres, hsearch⟩ :=
    row_chunk_linkage (fun ts => ⟨2, ts.length, 4⟩) "d".data "T".data 2 10
      ⟨some [⟨"a".data, "d".data, 1, 0, "ta".data⟩, ⟨"b".data, "d".data, 1, 1, "tb".data⟩,
        ⟨"c".data, "d".data, 1, 2, "tc".data⟩], none, none, none⟩
      ⟨some [⟨"a".data, "d".data, 1, 0, "ta".data⟩, ⟨"b".data, "d".data, 1, 1, "tb".data⟩,
        ⟨"c".data, "d".data, 1, 2, "tc".data⟩],
       some [⟨0, "a".data, "d".data, 1, 0⟩, ⟨1, "b".data, "d".data, 1, 1⟩,
        ⟨2, "c".data, "d".data, 1, 2⟩],
       some (3, 4),
       some ⟨"d".data, 3, 4, EMBEDDING_MODEL_NAME, EMBEDDING_NORMALIZE, 2,
        chunkingVersion, "T".data⟩⟩
      [⟨"a".data, "d".data, 1, 0, "ta".data⟩, ⟨"b".data, "d".data, 1, 1, "tb".data⟩,
        ⟨"c".data, "d".data, 1, 2, "tc".data⟩]
      ⟨"d".data, 3, 4⟩ rfl rfl
  have hmeta : ([⟨0, "a".data, "d".data, 1, 0⟩, ⟨1, "b".data, "d".data, 1, 1⟩,
      (⟨2, "c".data, "d".data, 1, 2⟩ : RowMeta)] : List RowMeta) = meta :=
    Option.some.inj hm
  rw [← hmeta] at hrows hcid hload
  exact ⟨hrows, hload.trans hcid⟩

/-! ## C10 — chunk length bound -/

theorem hardSplitGo_mem (maxLen : Nat) :
    ∀ (fuel : Nat) (text : Str), ∀ c ∈ hardSplitGo fuel maxLen text,
      ∃ t0 : Str, c = pyStrip t0 ∧ t0.length ≤ maxLen := by
  intro fuel
  induction fuel with
  | zero => intro text c hc; simp [hardSplitGo] at hc
  | succ fuel ih =>
      intro text c hc
      rw [hardSplitGo] at hc
      split at hc
      · simp at hc
      · rcases List.mem_cons.mp hc with rfl | htail
        · exact ⟨text.take maxLen, rfl, by simp [List.length_take]⟩
        · exact ih _ c htail

theorem hardSplit_mem (maxLen : Nat) (text : Str) :
    ∀ c ∈ hardSplit maxLen text, c ≠ [] ∧ c.length ≤ maxLen ∧ pyStrip c = c := by
  intro c hc
  obtain ⟨hmem, hne⟩ := List.mem_filter.mp hc
  obtain ⟨t0, rfl, hlen⟩ := hardSplitGo_mem maxLen _ _ _ hmem
  refine ⟨by simpa using hne, le_trans (pyStrip_length_le _) hlen, pyStrip_idem _⟩

theorem accumLoop_mem (maxLen : Nat) (sep : Str) (rsplit : Str → List Str)
    (parts : List Str) :
    ∀ (chunks0 : List Str) (cur0 : Str) (x : Str),
      x ∈ (accumLoop maxLen sep rsplit parts (chunks0, cur0)).1 →
      x ∈ chunks0 ∨ ∃ y, x ∈ rsplit y := by
  induction parts with
  | nil => intro chunks0 cur0 x hx; exact Or.inl hx
  | cons part rest ih =>
      intro chunks0 cur0 x hx
      simp only [accumLoop] at hx
      by_cases hp1 : List.isEmpty (pyStrip part) = true
      · rw [if_pos hp1] at hx
        exact ih _ _ x hx
      · rw [if_neg hp1] at hx
        by_cases hp2 : (if cur0.isEmpty = true then pyStrip part
            else cur0 ++ sep ++ pyStrip part).length ≤ maxLen
        · rw [if_pos hp2] at hx
          exact ih _ _ x hx
        · rw [if_neg hp2] at hx
          rcases ih _ _ x hx with hin | hy
          · by_cases hp3 : cur0.isEmpty = true
            · rw [if_pos hp3] at hin
              exact Or.inl hin
            · rw [if_neg hp3] at hin
              rcases List.mem_append.mp hin with h1 | h2
              · exact Or.inl h1
              · exact Or.inr ⟨cur0, h2⟩
          · exact Or.inr hy

/-- Every chunk `_recursive_split` emits is non-empty, stripped, and at
most `maxLen` characters long, whenever the separator list contains the
hard-split fallback `""` and `maxLen` is positive. -/
theorem recursiveSplit_invariant (maxLen : Nat) (_hml : 0 < maxLen) :
    ∀ (seps : List Str), [] ∈ seps → ∀ (text : Str),
      ∀ c ∈ recursiveSplit maxLen seps text,
        c ≠ [] ∧ c.length ≤ maxLen ∧ pyStrip c = c := by
  intro seps
  induction seps with
  | nil => intro h; simp at h
  | cons sep rest ih =>
      intro hsep text c hc
      rw [recursiveSplit] at hc
      dsimp only at hc
      by_cases h1 : (pyStrip text).isEmpty = true
      · rw [if_pos h1] at hc; simp at hc
      · rw [if_neg h1] at hc
        by_cases h2 : (pyStrip text).length ≤ maxLen
        · rw [if_pos h2] at hc
          rcases List.mem_singleton.mp hc with rfl
          exact ⟨by simpa [List.isEmpty_iff] using h1, h2, pyStrip_idem _⟩
        · rw [if_neg h2] at hc
          by_cases h3 : sep.isEmpty = true
          · rw [if_pos h3] at hc
            exact hardSplit_mem maxLen _ c hc
          · rw [if_neg h3] at hc
            have hrest : ([] : Str) ∈ rest := by
              rcases List.mem_cons.mp hsep with heq | hmem
              · exact absurd heq.symm (by simpa [List.isEmpty_iff] using h3)
              · exact hmem
            by_cases h4 : (pySplit sep (pyStrip text)).length = 1
            · rw [if_pos h4] at hc
              exact ih hrest _ c hc
            · rw [if_neg h4] at hc
              obtain ⟨hmem, hne⟩ := List.mem_filter.mp hc
              obtain ⟨c0, hc0, rfl⟩ := List.mem_map.mp hmem
              have hc0src : (∃ y, c0 ∈ recursiveSplit maxLen rest y) := by
                revert hc0
                split
                · intro hc0
                  rcases accumLoop_mem maxLen sep _ _ _ _ _ hc0 with hin | hy
                  · simp at hin
                  · exact hy
                · intro hc0
                  rcases List.mem_append.mp hc0 with hin | hin
                  · rcases accumLoop_mem maxLen sep _ _ _ _ _ hin with hin2 | hy
                    · simp at hin2
                    · exact hy
                  · exact ⟨_, hin⟩
              obtain ⟨y, hcy⟩ := hc0src
              obtain ⟨hne0, hlen0, hstr0⟩ := ih hrest y c0 hcy
              rw [hstr0]
              exact ⟨hne0, hlen0, hstr0⟩

theorem overlapTail_length_le (o : Nat) (prev : Str) :
    (overlapTail o prev).length ≤ o := by
  unfold overlapTail
  split
  · simp [List.length_drop]; omega
  · omega

theorem applyOverlapGo_length_bound (o maxLen : Nat) (rest : List Str) :
    ∀ prev, (∀ c ∈ rest, c.length ≤ maxLen) →
      ∀ x ∈ applyOverlapGo o prev rest, x.length ≤ maxLen + o + 1 := by
  induction rest with
  | nil => intro prev _ x hx; simp [applyOverlapGo] at hx
  | cons c rest' ih =>
      intro prev hb x hx
      rw [applyOverlapGo] at hx
      rcases List.mem_cons.mp hx with rfl | htail
      · have h1 := pyStrip_length_le (overlapTail o prev ++ [' '] ++ c)
        have h2 := overlapTail_length_le o prev
        have h3 := hb c (List.mem_cons_self _ _)
        simp only [List.length_append, List.length_cons, List.length_nil] at h1
        omega
      · exact ih _ (fun c2 h2 => hb c2 (List.mem_cons_of_mem _ h2)) x htail

theorem applyOverlap_length_bound (chunks : List Str) (o maxLen : Nat)
    (h : ∀ c ∈ chunks, c.length ≤ maxLen) :
    ∀ x ∈ applyOverlap chunks o, x.length ≤ maxLen + o + 1 := by
  intro x hx
  unfold applyOverlap at hx
  cases chunks with
  | nil => simp at hx
  | cons c0 rest =>
      simp only [] at hx
      by_cases ho : o = 0
      · rw [if_pos ho] at hx
        exact le_trans (h x hx) (by omega)
      · rw [if_neg ho] at hx
        rcases List.mem_cons.mp hx with rfl | htail
        · exact le_trans (h x (List.mem_cons_self _ _)) (by omega)
        · exact applyOverlapGo_length_bound o maxLen rest c0
            (fun c2 h2 => h c2 (List.mem_cons_of_mem _ h2)) x htail

/-- `chunkStep` only ever appends the chunk text it is given. -/
theorem chunkStep_text_inv (B : Nat) (docId : Str) (pageNum : Int) (source : Str)
    (confidence : Option Score) (pageText : Str) (st st2 : ChunkBuildSt) (ctext : Str)
    (h : chunkStep docId pageNum source confidence pageText st ctext = .ok st2)
    (hlen : ctext.length ≤ B)
    (hp : ∀ c ∈ st.chunks, c.text.length ≤ B) :
    ∀ c ∈ st2.chunks, c.text.length ≤ B := by
  unfold chunkStep at h
  split at h
  · cases h; exact hp
  · split at h <;> split at h <;>
      first
        | (cases h; done)
        | (cases h
           intro c hc
           rcases List.mem_append.mp hc with hold | hnew
           · exact hp c hold
           · rcases List.mem_singleton.mp hnew with rfl
             simpa using hlen)

/-- `buildPage` only appends texts of overlapped split chunks, which the
settings bound by `CHUNK_SIZE_CHARS + CHUNK_OVERLAP_CHARS + 1`. -/
theorem buildPage_text_inv (docId : Str) (st st2 : ChunkBuildSt) (p : PageObj)
    (h : buildPage docId CHUNK_SIZE_CHARS CHUNK_OVERLAP_CHARS CHUNK_SEPARATORS st p = .ok st2)
    (hp : ∀ c ∈ st.chunks, c.text.length ≤ CHUNK_SIZE_CHARS + CHUNK_OVERLAP_CHARS + 1) :
    ∀ c ∈ st2.chunks, c.text.length ≤ CHUNK_SIZE_CHARS + CHUNK_OVERLAP_CHARS + 1 := by
  unfold buildPage at h
  split at h
  · cases h; exact hp
  · refine foldlM_except_inv
      (fun s => ∀ c ∈ s.chunks, c.text.length ≤ CHUNK_SIZE_CHARS + CHUNK_OVERLAP_CHARS + 1)
      _ _ ?_ _ st2 h hp
    intro s a ha s3 hs hps
    have hbase : ∀ c ∈ recursiveSplit CHUNK_SIZE_CHARS CHUNK_SEPARATORS
        (normalizeText p.text), c.length ≤ CHUNK_SIZE_CHARS := by
      intro c hc
      exact (recursiveSplit_invariant CHUNK_SIZE_CHARS (by decide) CHUNK_SEPARATORS
        (by decide) _ c hc).2.1
    have halen : a.length ≤ CHUNK_SIZE_CHARS + CHUNK_OVERLAP_CHARS + 1 :=
      applyOverlap_length_bound _ CHUNK_OVERLAP_CHARS CHUNK_SIZE_CHARS hbase a ha
    exact chunkStep_text_inv _ docId p.page p.source p.confidence _ s s3 a hs halen hps

/-- C10: every string `_recursive_split` returns is non-empty and at most
`max_len` characters (given a separator tuple ending in "" and a positive
`max_len`); consequently every chunk text `build_chunks_for_doc` produces
after overlap is applied is at most
`CHUNK_SIZE_CHARS + CHUNK_OVERLAP_CHARS + 1` characters long. -/
theorem chunk_length_bound :
    (∀ (maxLen : Nat) (seps : List Str) (text : Str), [] ∈ seps → 0 < maxLen →
        ∀ c ∈ recursiveSplit maxLen seps text, c ≠ [] ∧ c.length ≤ maxLen)
  ∧ (∀ (docId : Str) (pages : List PageObj) (createdAt : Str),
        ∀ ch ∈ chunksOf (buildChunksForDoc docId pages createdAt),
          ch.text.length ≤ CHUNK_SIZE_CHARS + CHUNK_OVERLAP_CHARS + 1) := by
  constructor
  · intro maxLen seps text hsep hml c hc
    obtain ⟨h1, h2, _⟩ := recursiveSplit_invariant maxLen hml seps hsep text c hc
    exact ⟨h1, h2⟩
  · intro docId pages createdAt ch hch
    unfold buildChunksForDoc chunksOf at hch
    revert hch
    cases h : pages.foldlM
        (buildPage docId CHUNK_SIZE_CHARS CHUNK_OVERLAP_CHARS CHUNK_SEPARATORS)
        ⟨0, 0, [], []⟩ with
    | error e => simp
    | ok st =>
        simp only []
        intro hch
        exact foldlM_except_inv
          (fun s => ∀ c ∈ s.chunks,
            c.text.length ≤ CHUNK_SIZE_CHARS + CHUNK_OVERLAP_CHARS + 1)
          _ _ (fun s a _ s2 hs => buildPage_text_inv docId s s2 a hs)
          _ st h (by simp) ch hch

/-- C10 witness: a concrete hard split (max_len 5) and a concrete built
chunk stay within the bounds. -/
theorem chunk_length_bound_witness :
    "abcde".data ∈ recursiveSplit 5 [[]] "abcdefgh".data
  ∧ ("abcde".data ≠ [] ∧ ("abcde".data).length ≤ 5)
  ∧ (⟨"11d70a75b2fe16d494a8246b".data, "d".data, 1, 0, "hello world".data, 0, 11,
        "pdf".data, none⟩ : Chunk).text.length
      ≤ CHUNK_SIZE_CHARS + CHUNK_OVERLAP_CHARS + 1 := by
  have hmem : "abcde".data ∈ recursiveSplit 5 [[]] "abcdefgh".data := by decide
  have hmem2 : (⟨"11d70a75b2fe16d494a8246b".data, "d".data, 1, 0, "hello world".data, 0, 11,
      "pdf".data, none⟩ : Chunk)
      ∈ chunksOf (buildChunksForDoc "d".data [⟨1, "hello world".data, "pdf".data, none⟩]
        "A".data) := by decide
  exact ⟨hmem,
    chunk_length_bound.1 5 [[]] "abcdefgh".data (by decide) (by decide) _ hmem,
    chunk_length_bound.2 "d".data [⟨1, "hello world".data, "pdf".data, none⟩] "A".data _ hmem2⟩

/-! ## C9 — overlap invariant -/

/-- A non-empty suffix has the same last element. -/
theorem suffix_getLast (l1 l2 : List Char) (h : l1 <:+ l2) (hne : l1 ≠ []) :
    l1.getLast? = l2.getLast? := by
  obtain ⟨pre, rfl⟩ := h
  rw [List.getLast?_append]
  cases hgl : l1.getLast? with
  | none => exact absurd (List.getLast?_eq_none_iff.mp hgl) hne
  | some x => rfl

/-- The overlap tail of a string whose last character is not whitespace
is non-empty (for positive overlap) and ends in that same character. -/
theorem overlapTail_last (o : Nat) (ho : 0 < o) (prev : Str) (hne : prev ≠ []) :
    overlapTail o prev ≠ [] ∧ (overlapTail o prev).getLast? = prev.getLast? := by
  have hsuf : overlapTail o prev <:+ prev := by
    unfold overlapTail
    split
    · exact List.drop_suffix _ _
    · exact List.suffix_refl _
  have hlen : overlapTail o prev ≠ [] := by
    unfold overlapTail
    split
    · intro hcontra
      have := congrArg List.length hcontra
      simp [List.length_drop] at this
      omega
    · exact hne
  exact ⟨hlen, suffix_getLast _ _ hsuf hlen⟩

/-- Heart of the overlap invariant: with a tail that ends in a non-space
character and a stripped non-empty next chunk, the `strip` in
`_apply_overlap` removes only the tail's leading whitespace, so the
combined chunk is exactly `strip(tail) ++ " " ++ next`. -/
theorem pyStrip_tail_append (tl c : Str)
    (htl0 : tl ≠ []) (htlast : ∀ x, tl.getLast? = some x → pyIsSpace x = false)
    (hc : strippedNE c) :
    pyStrip (tl ++ [' '] ++ c) = pyStrip tl ++ [' '] ++ c := by
  obtain ⟨xl, hxl⟩ : ∃ x, tl.getLast? = some x := by
    cases hgl : tl.getLast? with
    | none => exact absurd (List.getLast?_eq_none_iff.mp hgl) htl0
    | some x => exact ⟨x, rfl⟩
  have hLne : pyLstrip tl ≠ [] := pyLstrip_ne_nil tl xl hxl (htlast xl hxl)
  have hLsuf : pyLstrip tl <:+ tl := List.dropWhile_suffix _
  have hLlast : (pyLstrip tl).getLast? = tl.getLast? := suffix_getLast _ _ hLsuf hLne
  have hcne : c ≠ [] := hc.1
  have hclast : ∀ x, c.getLast? = some x → pyIsSpace x = false := strippedNE_getLast c hc
  -- lstrip distributes: the leading whitespace run is inside `tl`
  have hstep1 : pyLstrip (tl ++ [' '] ++ c) = pyLstrip tl ++ [' '] ++ c := by
    have hne2 : (tl.dropWhile pyIsSpace).isEmpty = false := by
      cases hdw : tl.dropWhile pyIsSpace with
      | nil => exact absurd hdw hLne
      | cons a l => rfl
    rw [List.append_assoc]
    show (tl ++ ([' '] ++ c)).dropWhile pyIsSpace = pyLstrip tl ++ [' '] ++ c
    rw [List.dropWhile_append, hne2]
    simp [pyLstrip]
  -- the combined string ends in the last character of `c`: rstrip is a no-op
  have hlast2 : (pyLstrip tl ++ [' '] ++ c).getLast? = c.getLast? :=
    (suffix_getLast c _ ⟨pyLstrip tl ++ [' '], rfl⟩ hcne).symm
  have hstep2 : pyRstrip (pyLstrip tl ++ [' '] ++ c) = pyLstrip tl ++ [' '] ++ c := by
    apply pyRstrip_noop
    intro x hx
    rw [hlast2] at hx
    exact hclast x hx
  -- and `strip tl = lstrip tl`, since `tl` ends in a non-space character
  have hstep3 : pyStrip tl = pyLstrip tl := by
    rw [pyStrip]
    apply pyRstrip_noop
    intro x hx
    rw [hLlast] at hx
    exact htlast x hx
  rw [pyStrip, hstep1, hstep2, hstep3]

/-- Induction core for C9: walking `_apply_overlap`'s loop, every output
chunk is `strip(tail of previous output) ++ " " ++ input chunk`, and the
chain of previous-output values is `prev :: out`. -/
theorem applyOverlapGo_spec (o : Nat) (ho : 0 < o) (rest : List Str) :
    ∀ prev : Str, prev ≠ [] →
      (∀ x, prev.getLast? = some x → pyIsSpace x = false) →
      (∀ c ∈ rest, strippedNE c) →
      (applyOverlapGo o prev rest).length = rest.length
    ∧ ∀ i, i < rest.length →
        (applyOverlapGo o prev rest).getD i []
          = pyStrip (overlapTail o ((prev :: applyOverlapGo o prev rest).getD i []))
              ++ [' '] ++ rest.getD i [] := by
  induction rest with
  | nil => intro prev _ _ _; simp [applyOverlapGo]
  | cons c rest' ih =>
      intro prev hpne hplast hstr
      have hcstr : strippedNE c := hstr c (List.mem_cons_self _ _)
      obtain ⟨htlne, htllast⟩ := overlapTail_last o ho prev hpne
      have hcomb : pyStrip (overlapTail o prev ++ [' '] ++ c)
          = pyStrip (overlapTail o prev) ++ [' '] ++ c :=
        pyStrip_tail_append (overlapTail o prev) c htlne
          (fun x hx => hplast x (htllast ▸ hx)) hcstr
      have hcombne : pyStrip (overlapTail o prev ++ [' '] ++ c) ≠ [] := by
        rw [hcomb]
        simp
      have hcomblast : ∀ x,
          (pyStrip (overlapTail o prev ++ [' '] ++ c)).getLast? = some x →
          pyIsSpace x = false := by
        intro x hx
        rw [hcomb, List.append_assoc, List.getLast?_append] at hx
        cases hgl : c.getLast? with
        | none => exact absurd (List.getLast?_eq_none_iff.mp hgl) hcstr.1
        | some y =>
            rw [List.getLast?_append, hgl] at hx
            simp at hx
            rw [← hx]
            exact strippedNE_getLast c hcstr y hgl
      obtain ⟨ihlen, ihidx⟩ := ih (pyStrip (overlapTail o prev ++ [' '] ++ c))
        hcombne hcomblast (fun c2 h2 => hstr c2 (List.mem_cons_of_mem _ h2))
      rw [applyOverlapGo]
      refine ⟨by simpa using ihlen, ?_⟩
      intro i hi
      cases i with
      | zero => simpa using hcomb
      | succ j =>
          have hj : j < rest'.length := by simpa using hi
          simpa using ihidx j hj

/-- C9: for a chunk list of non-empty stripped chunks (which is what
`_recursive_split` produces) and overlap `o > 0`, `_apply_overlap` keeps
the chunk count, and every chunk after the first is exactly the trailing
`o` characters of the previous (output) chunk, trimmed of whitespace,
then a space, then the original chunk — in particular it begins with that
trimmed trailing-overlap prefix. -/
theorem overlap_invariant (chunks : List Str) (o : Nat) (ho : 0 < o)
    (hstr : ∀ c ∈ chunks, strippedNE c) :
    (applyOverlap chunks o).length = chunks.length
  ∧ (∀ i, i + 1 < (applyOverlap chunks o).length →
      (applyOverlap chunks o).getD (i + 1) []
        = pyStrip (overlapTail o ((applyOverlap chunks o).getD i []))
            ++ [' '] ++ chunks.getD (i + 1) [])
  ∧ (∀ (maxLen : Nat) (seps : List Str) (text : Str), [] ∈ seps → 0 < maxLen →
      ∀ c ∈ recursiveSplit maxLen seps text, strippedNE c) := by
  have hrs : ∀ (maxLen : Nat) (seps : List Str) (text : Str), [] ∈ seps → 0 < maxLen →
      ∀ c ∈ recursiveSplit maxLen seps text, strippedNE c := by
    intro maxLen seps text hsep hml c hc
    obtain ⟨h1, _, h3⟩ := recursiveSplit_invariant maxLen hml seps hsep text c hc
    exact ⟨h1, h3⟩
  cases chunks with
  | nil => exact ⟨rfl, by intro i hi; simp [applyOverlap] at hi, hrs⟩
  | cons c0 rest =>
      have hAO : applyOverlap (c0 :: rest) o = c0 :: applyOverlapGo o c0 rest := by
        simp [applyOverlap, Nat.pos_iff_ne_zero.mp ho]
      have h0 := hstr c0 (List.mem_cons_self _ _)
      obtain ⟨hlen, hidx⟩ := applyOverlapGo_spec o ho rest c0 h0.1
        (strippedNE_getLast c0 h0) (fun c2 h2 => hstr c2 (List.mem_cons_of_mem _ h2))
      rw [hAO]
      refine ⟨by simpa using hlen, ?_, hrs⟩
      intro i hi
      have hi2 : i < rest.length := by
        simp only [List.length_cons, hlen] at hi
        omega
      simpa using hidx i hi2

/-- C9 witness: `["ab cd", "efg"]` with overlap 3 — the second output
chunk is `"cd efg"`, i.e. the trimmed trailing-3 characters of the first
chunk, a space, and the original second chunk. -/
theorem overlap_invariant_witness :
    (applyOverlap ["ab cd".data, "efg".data] 3).getD 1 []
      = pyStrip (overlapTail 3 ((applyOverlap ["ab cd".data, "efg".data] 3).getD 0 []))
          ++ [' '] ++ "efg".data
  ∧ (applyOverlap ["ab cd".data, "efg".data] 3).getD 1 [] = "cd efg".data
  ∧ (applyOverlap ["ab cd".data, "efg".data] 3).length = 2 := by
  have hstr : ∀ c ∈ ["ab cd".data, "efg".data], strippedNE c := by
    intro c hc
    simp only [List.mem_cons, List.not_mem_nil, or_false] at hc
    rcases hc with rfl | rfl
    · exact ⟨by decide, by decide⟩
    · exact ⟨by decide, by decide⟩
  have h := overlap_invariant ["ab cd".data, "efg".data] 3 (by decide) hstr
  exact ⟨h.2.1 0 (by rw [h.1]; decide), by decide, h.1⟩

end DocQA
